import Mathlib

/-!
Verification of the Oktavia just-intonation tuning engine.

This file contains a shallow embedding of the numerical core of the
Oktavia microtonal scale workshop:

* `bestRationalApproximation` and `fractionStringApprox`
  (from `js modules/math-utils.js`),
* the snap candidate generation `initSnapCandidates` and the recursive
  `gcd` (from the main script),
* the snapping routine `maybeSnap` (from the main script),
* the scale-degree store and its public operations: insert, delete,
  clear-all, drag, and preset replacement (from the main script).

The JavaScript source computes with IEEE doubles; the embedding models
numbers exactly (a linear ordered field with a floor function, used at
`ℚ` where computations must be executable and at `ℝ` where the code
takes logarithms), and models the `while (true)` loop of the
continued-fraction routine with an explicit fuel argument that is proved
sufficient.
-/

namespace Oktavia

/-! ### RationalApproximator (`js modules/math-utils.js`, `bestRationalApproximation`)

The JS source:

```
export function bestRationalApproximation(x, maxDen) {
  let pPrevPrev = 0, pPrev = 1;
  let qPrevPrev = 1, qPrev = 0;
  let fraction = x;
  let a = Math.floor(fraction);
  let p = a * pPrev + pPrevPrev;
  let q = a * qPrev + qPrevPrev;
  while (true) {
    let remainder = fraction - a;
    if (Math.abs(remainder) < 1e-12) break;
    fraction = 1 / remainder;
    a = Math.floor(fraction);
    let pNext = a * p + pPrev;
    let qNext = a * q + qPrev;
    if (qNext > maxDen) break;
    pPrevPrev = pPrev; qPrevPrev = qPrev;
    pPrev = p; qPrev = q;
    p = pNext; q = qNext;
  }
  return [p, q];
}
```

At every loop head the variable `a` equals `⌊fraction⌋` (it is set to
that value both before the loop and at each update of `fraction`), so
the embedding recomputes it from `fraction` at the head of each
iteration.  The loop is modelled with fuel; `none` marks fuel
exhaustion, which the totality theorem shows never happens for the fuel
chosen in `bestRationalApproximation`. -/

variable {K : Type} [LinearOrderedField K] [FloorRing K]

/-- The `1e-12` zero-remainder tolerance of `bestRationalApproximation`. -/
def braEps (K : Type) [LinearOrderedField K] : K := 1 / 10 ^ 12

/-- The body of the `while (true)` loop of `bestRationalApproximation`,
with state `(fraction, pPrevPrev, pPrev, qPrevPrev, qPrev, p, q)` and an
explicit fuel argument. -/
def braLoop (maxDen : ℤ) :
    ℕ → K → ℤ → ℤ → ℤ → ℤ → ℤ → ℤ → Option (ℤ × ℤ)
  | fuel, fraction, pPrevPrev, pPrev, qPrevPrev, qPrev, p, q =>
    let a : ℤ := ⌊fraction⌋
    let remainder : K := fraction - a
    if |remainder| < braEps K then some (p, q)
    else
      let fraction2 : K := 1 / remainder
      let a2 : ℤ := ⌊fraction2⌋
      let pNext : ℤ := a2 * p + pPrev
      let qNext : ℤ := a2 * q + qPrev
      if maxDen < qNext then some (p, q)
      else
        match fuel with
        | 0 => none
        | fuel' + 1 =>
            braLoop maxDen fuel' fraction2 pPrev p qPrev q pNext qNext

/-- `bestRationalApproximation` from `math-utils.js`.  The fuel
`maxDen.toNat + 2` is an upper bound on the number of loop iterations
(proved in `braLoop_isSome`), so the `none` branch of `braLoop` is
never taken. -/
def bestRationalApproximation (x : K) (maxDen : ℤ) : Option (ℤ × ℤ) :=
  let a : ℤ := ⌊x⌋
  braLoop maxDen (maxDen.toNat + 2) x 0 1 1 0 (a * 1 + 0) (a * 0 + 1)

theorem braLoop_eq (maxDen : ℤ) (fuel : ℕ) (fraction : K)
    (pPrevPrev pPrev qPrevPrev qPrev p q : ℤ) :
    braLoop maxDen fuel fraction pPrevPrev pPrev qPrevPrev qPrev p q =
      if |fraction - (⌊fraction⌋ : K)| < braEps K then some (p, q)
      else
        if maxDen < ⌊1 / (fraction - (⌊fraction⌋ : K))⌋ * q + qPrev then
          some (p, q)
        else
          match fuel with
          | 0 => none
          | fuel' + 1 =>
              braLoop maxDen fuel' (1 / (fraction - (⌊fraction⌋ : K)))
                pPrev p qPrev q
                (⌊1 / (fraction - (⌊fraction⌋ : K))⌋ * p + pPrev)
                (⌊1 / (fraction - (⌊fraction⌋ : K))⌋ * q + qPrev) := by
  cases fuel <;> rfl

theorem braEps_pos : (0 : K) < braEps K := by
  rw [braEps]; positivity

/-- In a continuing iteration the remainder lies in `(0, 1)`, hence the
next partial quotient `⌊1 / remainder⌋` is at least `1`. -/
theorem bra_next_quotient_ge_one (f : K) (h : ¬|f - (⌊f⌋ : K)| < braEps K) :
    1 ≤ ⌊1 / (f - (⌊f⌋ : K))⌋ := by
  have hfr0 : (0 : K) ≤ f - (⌊f⌋ : K) := by
    have := Int.floor_le f; linarith
  have hfr1 : f - (⌊f⌋ : K) < 1 := by
    have := Int.lt_floor_add_one f; linarith
  have hpos : (0 : K) < f - (⌊f⌋ : K) := by
    rcases lt_or_eq_of_le hfr0 with h0 | h0
    · exact h0
    · exfalso
      apply h
      rw [← h0, abs_zero]
      exact braEps_pos
  rw [Int.le_floor]
  push_cast
  rw [le_div_iff₀ hpos]
  linarith

/-- Fuel-sufficiency for the loop: as soon as the fuel exceeds
`maxDen - (q + qPrev)` the loop exits before exhausting it, because the
candidate denominators grow by at least one per iteration once both
state denominators are positive. -/
theorem braLoop_isSome (maxDen : ℤ) :
    ∀ (fuel : ℕ) (f : K) (pPrevPrev pPrev qPrevPrev qPrev p q : ℤ),
      0 ≤ qPrev → 1 ≤ q → maxDen < q + qPrev + fuel →
      (braLoop maxDen fuel f pPrevPrev pPrev qPrevPrev qPrev p q).isSome := by
  intro fuel
  induction fuel with
  | zero =>
    intro f ppp pp qpp qp p q hqp hq hlt
    rw [braLoop_eq]
    by_cases h1 : |f - (⌊f⌋ : K)| < braEps K
    · rw [if_pos h1]; rfl
    · rw [if_neg h1]
      set a2 : ℤ := ⌊1 / (f - (⌊f⌋ : K))⌋ with ha2
      have ha21 : 1 ≤ a2 := bra_next_quotient_ge_one f h1
      have hgrow : q + qp ≤ a2 * q + qp := by nlinarith
      have : maxDen < a2 * q + qp := by push_cast at hlt; omega
      rw [if_pos this]; rfl
  | succ fuel' ih =>
    intro f ppp pp qpp qp p q hqp hq hlt
    rw [braLoop_eq]
    by_cases h1 : |f - (⌊f⌋ : K)| < braEps K
    · rw [if_pos h1]; rfl
    · rw [if_neg h1]
      set a2 : ℤ := ⌊1 / (f - (⌊f⌋ : K))⌋ with ha2
      have ha21 : 1 ≤ a2 := bra_next_quotient_ge_one f h1
      by_cases h2 : maxDen < a2 * q + qp
      · rw [if_pos h2]; rfl
      · rw [if_neg h2]
        apply ih
        · omega
        · nlinarith
        · have hgrow : q + qp + 1 ≤ (a2 * q + qp) + q := by nlinarith
          push_cast at hlt ⊢
          omega

/-- Every pair the loop can return has second component at most
`maxDen`, provided the current convergent denominator satisfies the
bound: the loop only ever replaces `q` after checking `qNext ≤ maxDen`. -/
theorem braLoop_den_le (maxDen : ℤ) :
    ∀ (fuel : ℕ) (f : K) (pPrevPrev pPrev qPrevPrev qPrev p q p' q' : ℤ),
      q ≤ maxDen →
      braLoop maxDen fuel f pPrevPrev pPrev qPrevPrev qPrev p q =
        some (p', q') →
      q' ≤ maxDen := by
  intro fuel
  induction fuel with
  | zero =>
    intro f ppp pp qpp qp p q p' q' hq hres
    rw [braLoop_eq] at hres
    by_cases h1 : |f - (⌊f⌋ : K)| < braEps K
    · rw [if_pos h1] at hres
      obtain ⟨-, rfl⟩ := Prod.mk.injEq .. ▸ Option.some.injEq .. ▸ hres
      · exact hq
    · rw [if_neg h1] at hres
      by_cases h2 : maxDen < ⌊1 / (f - (⌊f⌋ : K))⌋ * q + qp
      · rw [if_pos h2] at hres
        cases hres
        exact hq
      · rw [if_neg h2] at hres
        cases hres
  | succ fuel' ih =>
    intro f ppp pp qpp qp p q p' q' hq hres
    rw [braLoop_eq] at hres
    by_cases h1 : |f - (⌊f⌋ : K)| < braEps K
    · rw [if_pos h1] at hres
      cases hres
      exact hq
    · rw [if_neg h1] at hres
      by_cases h2 : maxDen < ⌊1 / (f - (⌊f⌋ : K))⌋ * q + qp
      · rw [if_pos h2] at hres
        cases hres
        exact hq
      · rw [if_neg h2] at hres
        exact ih _ _ _ _ _ _ _ _ _ (by omega) hres

/-- Main loop invariant for exactness on small-denominator rationals.
At every loop head the complete quotient `f` can be written `u / v`
with `v > 0`, and the integer identities
`u * qPrev + v * qPrevPrev = x.den` and
`u * pPrev + v * pPrevPrev = x.num` hold.  When the denominator of the
input is at most `50`, the `1e-12` zero-remainder test can only fire on
an exactly zero remainder, the `maxDen` check (with `maxDen = 100000`)
never fires, and the loop stops at exactly `(x.num, x.den)`. -/
theorem braLoop_exact (x : ℚ) :
    ∀ (fuel : ℕ) (f : ℚ) (pPrevPrev pPrev qPrevPrev qPrev p q u v : ℤ),
      0 < v → (v : ℚ) * f = u →
      u * qPrev + v * qPrevPrev = (x.den : ℤ) →
      u * pPrev + v * pPrevPrev = x.num →
      v ≤ (x.den : ℤ) → (x.den : ℤ) ≤ 50 →
      v ≤ (fuel : ℤ) + 1 →
      0 ≤ qPrev → 0 ≤ q →
      p = ⌊f⌋ * pPrev + pPrevPrev →
      q = ⌊f⌋ * qPrev + qPrevPrev →
      braLoop 100000 fuel f pPrevPrev pPrev qPrevPrev qPrev p q =
        some (x.num, (x.den : ℤ)) := by
  intro fuel
  induction fuel with
  | zero =>
    intro f ppp pp qpp qp p q u v hv hvf hden hnum hvd hd50 hfuel hqp hq0 hp hq
    have hv1 : v = 1 := by omega
    subst hv1
    have hf : f = (u : ℚ) := by push_cast at hvf; linarith [hvf]
    subst hf
    rw [braLoop_eq]
    rw [if_pos]
    · rw [Int.floor_intCast] at hp hq
      congr 2 <;> omega
    · rw [Int.floor_intCast, sub_self, abs_zero]
      exact braEps_pos
  | succ fuel' ih =>
    intro f ppp pp qpp qp p q u v hv hvf hden hnum hvd hd50 hfuel hqp hq0 hp hq
    have hvQ : (v : ℚ) ≠ 0 := by
      have : (0 : ℚ) < v := by exact_mod_cast hv
      linarith
    have hvQpos : (0 : ℚ) < v := by exact_mod_cast hv
    obtain ⟨a, ha⟩ : ∃ a : ℤ, a = ⌊f⌋ := ⟨_, rfl⟩
    rw [← ha] at hp hq
    obtain ⟨k, hk⟩ : ∃ k : ℤ, k = u - a * v := ⟨_, rfl⟩
    have hfl : (a : ℚ) ≤ f := by rw [ha]; exact Int.floor_le f
    have hfu : f < (a : ℚ) + 1 := by
      rw [ha]; exact_mod_cast Int.lt_floor_add_one f
    have hk0 : 0 ≤ k := by
      have h1 : (a : ℚ) * v ≤ u := by
        calc (a : ℚ) * v ≤ f * v := mul_le_mul_of_nonneg_right hfl (le_of_lt hvQpos)
          _ = u := by rw [mul_comm]; exact hvf
      have h2 : a * v ≤ u := by exact_mod_cast h1
      omega
    have hkv : k < v := by
      have h1 : (u : ℚ) < (a : ℚ) * v + v := by
        calc (u : ℚ) = v * f := hvf.symm
          _ < v * ((a : ℚ) + 1) := mul_lt_mul_of_pos_left hfu hvQpos
          _ = (a : ℚ) * v + v := by ring
      have h2 : u < a * v + v := by exact_mod_cast h1
      have h3 : a * v + v = (a + 1) * v := by ring
      omega
    have hrem : f - (a : ℚ) = (k : ℚ) / v := by
      rw [eq_div_iff hvQ, hk]
      push_cast
      linear_combination hvf
    rcases eq_or_lt_of_le hk0 with hkz | hkpos
    · -- the remainder is exactly zero: the loop exits on the tolerance
      -- check and returns the current convergent, which is (x.num, x.den)
      have hcond : |f - ((⌊f⌋ : ℤ) : ℚ)| < braEps ℚ := by
        rw [← ha, hrem, ← hkz]
        simp only [Int.cast_zero, zero_div, abs_zero]
        exact braEps_pos
      rw [braLoop_eq, if_pos hcond]
      have huav : u = a * v := by omega
      have hnum' : x.num = v * p := by
        rw [hp]
        rw [huav] at hnum
        linear_combination -hnum
      have hden' : (x.den : ℤ) = v * q := by
        rw [hq]
        rw [huav] at hden
        linear_combination -hden
      have hv1 : v = 1 := by
        have h1 : v.natAbs ∣ x.num.natAbs :=
          Int.natAbs_dvd_natAbs.mpr ⟨p, hnum'⟩
        have h2 : v.natAbs ∣ x.den := by
          have h0 : v ∣ (x.den : ℤ) := ⟨q, hden'⟩
          have h0' := Int.natAbs_dvd_natAbs.mpr h0
          simpa using h0'
        have h3 : v.natAbs ∣ Nat.gcd x.num.natAbs x.den := Nat.dvd_gcd h1 h2
        have h4 : Nat.gcd x.num.natAbs x.den = 1 := x.reduced
        rw [h4, Nat.dvd_one] at h3
        omega
      subst hv1
      congr 2 <;> omega
    · -- positive remainder k/v: the tolerance cannot fire because
      -- k/v ≥ 1/50 > 1e-12, and the maxDen check cannot fire because the
      -- next denominator is at most x.den ≤ 50 < 100000
      have hkQpos : (0 : ℚ) < k := by exact_mod_cast hkpos
      have hremges : ¬|f - (a : ℚ)| < braEps ℚ := by
        rw [hrem, abs_of_nonneg (le_of_lt (div_pos hkQpos hvQpos)), braEps,
          not_lt, div_le_div_iff (by norm_num) hvQpos]
        have h1 : (1 : ℚ) ≤ (k : ℚ) := by exact_mod_cast hkpos
        have h2 : (v : ℚ) ≤ 50 := by
          have h0 : v ≤ 50 := le_trans hvd hd50
          exact_mod_cast h0
        nlinarith
      have hf2 : 1 / (f - (a : ℚ)) = (v : ℚ) / k := by
        rw [hrem, one_div_div]
      obtain ⟨a2, ha2⟩ : ∃ a2 : ℤ, a2 = ⌊1 / (f - (a : ℚ))⌋ := ⟨_, rfl⟩
      have ha2k : a2 * k ≤ v := by
        have h1 : (a2 : ℚ) ≤ 1 / (f - (a : ℚ)) := by
          rw [ha2]; exact Int.floor_le _
        rw [hf2] at h1
        have h2 : (a2 : ℚ) * k ≤ v := by
          rw [← le_div_iff₀ hkQpos]
          exact h1
        exact_mod_cast h2
      have ha21 : 1 ≤ a2 := by
        rw [ha2, ha]
        apply bra_next_quotient_ge_one f
        rw [← ha]
        exact hremges
      have hdenN : v * q + k * qp = (x.den : ℤ) := by
        rw [hq, hk]
        linear_combination hden
      have hnumN : v * p + k * pp = x.num := by
        rw [hp, hk]
        linear_combination hnum
      have hqN0 : 0 ≤ a2 * q + qp := by
        linarith [mul_nonneg (show (0 : ℤ) ≤ a2 by omega) hq0]
      have hqNle : ¬(100000 : ℤ) < a2 * q + qp := by
        have h1 : k * (a2 * q + qp) ≤ (x.den : ℤ) := by
          calc k * (a2 * q + qp) = a2 * k * q + k * qp := by ring
            _ ≤ v * q + k * qp := by
                linarith [mul_le_mul_of_nonneg_right ha2k hq0]
            _ = (x.den : ℤ) := hdenN
        have h2 : 1 * (a2 * q + qp) ≤ k * (a2 * q + qp) :=
          mul_le_mul_of_nonneg_right (by omega) hqN0
        omega
      rw [braLoop_eq, ← ha, if_neg hremges, ← ha2, if_neg hqNle]
      exact ih (1 / (f - (a : ℚ))) pp p qp q (a2 * p + pp) (a2 * q + qp) v k
        hkpos
        (by rw [hf2, mul_div_cancel₀]; exact ne_of_gt hkQpos)
        hdenN hnumN (by omega) hd50 (by push_cast at hfuel ⊢; omega)
        hq0 hqN0 (by rw [← ha2]) (by rw [← ha2])


/-- `bestRationalApproximation` never runs out of fuel. -/
theorem bra_isSome (x : K) (maxDen : ℤ) :
    (bestRationalApproximation x maxDen).isSome := by
  rw [bestRationalApproximation]
  apply braLoop_isSome
  · exact le_refl 0
  · omega
  · have := Int.self_le_toNat maxDen
    push_cast
    omega

/-- On a rational input whose (reduced) denominator is at most `50`,
`bestRationalApproximation x 100000` returns exactly the reduced
numerator/denominator pair of the input. -/
theorem bra_exact (x : ℚ) (hden : x.den ≤ 50) :
    bestRationalApproximation x 100000 = some (x.num, (x.den : ℤ)) := by
  rw [bestRationalApproximation]
  have hdenQ : ((x.den : ℤ) : ℚ) ≠ 0 := by
    have := x.pos
    push_cast
    positivity
  apply braLoop_exact x _ x 0 1 1 0 _ _ x.num x.den
  · exact_mod_cast x.pos
  · push_cast
    have hd0 : (x.den : ℚ) ≠ 0 := Nat.cast_ne_zero.mpr x.den_nz
    rw [mul_comm]
    exact (eq_div_iff hd0).mp (Rat.num_div_den x).symm
  · ring
  · ring
  · exact le_refl _
  · exact_mod_cast hden
  · have : (x.den : ℤ) ≤ 50 := by exact_mod_cast hden
    norm_num
    omega
  · norm_num
  · norm_num
  · rfl
  · rfl

/-- `fractionStringApprox` from `math-utils.js`:

```
export function fractionStringApprox(x) {
  let [num, den] = bestRationalApproximation(x, 100000);
  let approx = num / den;
  let err = Math.abs(x - approx);
  let label = num + "/" + den;
  if (err > 0.01) label = "~" + label;
  return label;
}
```

The JS destructuring always succeeds because the loop always returns a
pair (`bra_isSome`); the `getD` fallback is therefore never taken. -/
def fractionStringApprox (x : K) : String :=
  let nd := (bestRationalApproximation x 100000).getD (0, 1)
  let approx : K := (nd.1 : K) / (nd.2 : K)
  let err : K := |x - approx|
  let label := toString nd.1 ++ "/" ++ toString nd.2
  if 1 / 100 < err then "~" ++ label else label

/-! ### JustIntonationCandidateSet (main script, `initSnapCandidates` and `gcd`)

```
function initSnapCandidates() {
  snapCandidates = [];
  for (let d = 1; d <= MAX_DEN; d++) {
    for (let n = 1; n < 2 * d; n++) {
      let ratio = n / d;
      if (ratio <= 1 || ratio >= 2) continue;
      if (gcd(n, d) === 1) {
        snapCandidates.push({ ratio, num: n, den: d });
      }
    }
  }
  snapCandidates.sort((a, b) => a.ratio - b.ratio);
}
function gcd(a, b) {
  return b ? gcd(b, a % b) : a;
}
```

In this use the arguments of `gcd` are positive integers, so it is
embedded on `ℕ`.  `Array.prototype.sort` with an ascending comparator is
a stable ascending sort, embedded as insertion sort. -/

/-- The recursive `gcd` of the main script. -/
def gcdRec (a b : ℕ) : ℕ :=
  if h : b = 0 then a else gcdRec b (a % b)
termination_by b
decreasing_by exact Nat.mod_lt _ (Nat.pos_of_ne_zero h)

theorem gcdRec_eq_gcd (a b : ℕ) : gcdRec a b = Nat.gcd a b := by
  induction b using Nat.strong_induction_on generalizing a with
  | _ b ih =>
    rw [gcdRec]
    by_cases h : b = 0
    · rw [dif_pos h, h, Nat.gcd_zero_right]
    · rw [dif_neg h, ih _ (Nat.mod_lt _ (Nat.pos_of_ne_zero h)) b,
        Nat.gcd_comm b (a % b), ← Nat.gcd_rec b a, Nat.gcd_comm b a]

/-- One entry of `snapCandidates`: the object literal
`{ ratio, num: n, den: d }`. -/
structure SnapCandidate where
  ratio : ℚ
  num : ℕ
  den : ℕ
deriving DecidableEq, Repr

/-- Comparator `(a, b) => a.ratio - b.ratio` viewed as a `≤` relation. -/
def candLE (a b : SnapCandidate) : Prop := a.ratio ≤ b.ratio

instance : DecidableRel candLE :=
  fun a b => inferInstanceAs (Decidable (a.ratio ≤ b.ratio))

/-- The `MAX_DEN` constant of the main script. -/
def MAX_DEN : ℕ := 16

/-- `initSnapCandidates`, parameterised by the maximal denominator. -/
def initSnapCandidates (maxDen : ℕ) : List SnapCandidate :=
  List.insertionSort candLE
    ((List.range' 1 maxDen).bind fun (d : ℕ) =>
      (List.range' 1 (2 * d - 1)).filterMap fun (n : ℕ) =>
        let ratio : ℚ := (n : ℚ) / (d : ℚ)
        if ratio ≤ 1 ∨ 2 ≤ ratio then none
        else if gcdRec n d = 1 then some ⟨ratio, n, d⟩ else none)

/-! ### SnapEngine (main script, `maybeSnap`)

```
function maybeSnap(ratio) {
  let best = ratio;
  let bestDiff = Infinity;
  for (let cand of snapCandidates) {
    let centsDiff = 1200 * Math.abs(Math.log2(ratio / cand.ratio));
    if (centsDiff < SNAP_THRESHOLD_CENTS && centsDiff < bestDiff) {
      best = cand.ratio;
      bestDiff = centsDiff;
    }
  }
  return best;
}
```

The candidate list and threshold are globals in the source
(`snapCandidates`, `SNAP_THRESHOLD_CENTS = 10`); the embedding passes
them as parameters, instantiated with the globals at the drag call
site.  `Infinity` is modelled by `⊤ : EReal`. -/

/-- The cents distance computed inside the loop:
`1200 * Math.abs(Math.log2(ratio / cand.ratio))`. -/
noncomputable def cents (a b : ℝ) : ℝ := 1200 * |Real.logb 2 (a / b)|

open Classical in
/-- One iteration of the `for (cand of snapCandidates)` loop; the state
is the pair `(best, bestDiff)`. -/
noncomputable def snapStep (threshold ratio : ℝ) (s : ℝ × EReal) (cand : ℝ) :
    ℝ × EReal :=
  let centsDiff := cents ratio cand
  if centsDiff < threshold ∧ (centsDiff : EReal) < s.2 then
    (cand, (centsDiff : EReal))
  else s

/-- `maybeSnap`, with candidate values and threshold as parameters. -/
noncomputable def maybeSnap (cands : List ℝ) (threshold ratio : ℝ) : ℝ :=
  (cands.foldl (snapStep threshold ratio) (ratio, (⊤ : EReal))).1

/-- The `SNAP_THRESHOLD_CENTS` constant of the main script. -/
noncomputable def SNAP_THRESHOLD_CENTS : ℝ := 10

/-- The candidate ratio values as real numbers, as read from the global
`snapCandidates` built by `initSnapCandidates` with `MAX_DEN`. -/
noncomputable def snapCandidatesR : List ℝ :=
  (initSnapCandidates MAX_DEN).map (fun c => ((c.ratio : ℚ) : ℝ))

theorem cents_comm (a b : ℝ) : cents a b = cents b a := by
  rw [cents, cents, ← inv_div b a, Real.logb_inv, abs_neg]

theorem snapStep_cases (t r : ℝ) (s : ℝ × EReal) (c : ℝ) :
    snapStep t r s c = s ∨
      (snapStep t r s c = (c, (cents r c : EReal)) ∧ cents r c < t) := by
  rw [snapStep]
  by_cases h : cents r c < t ∧ ((cents r c : ℝ) : EReal) < s.2
  · right
    rw [if_pos h]
    exact ⟨rfl, h.1⟩
  · left
    rw [if_neg h]

/-- After folding the loop body over any candidate list, the `best`
component is either unchanged or a listed candidate whose cents distance
from the input is below the threshold. -/
theorem snapFold_mem (t r : ℝ) :
    ∀ (l : List ℝ) (s : ℝ × EReal),
      (List.foldl (snapStep t r) s l).1 = s.1 ∨
        ∃ c ∈ l, (List.foldl (snapStep t r) s l).1 = c ∧ cents r c < t := by
  intro l
  induction l with
  | nil => intro s; exact Or.inl rfl
  | cons c cs ih =>
    intro s
    rw [List.foldl_cons]
    rcases snapStep_cases t r s c with hs | hs
    · rw [hs]
      rcases ih s with h | h
      · exact Or.inl h
      · right
        obtain ⟨c', hc', hh⟩ := h
        exact ⟨c', List.mem_cons_of_mem _ hc', hh⟩
    · rw [hs.1]
      rcases ih (c, (cents r c : EReal)) with h | h
      · right
        exact ⟨c, List.mem_cons_self _ _, h, hs.2⟩
      · right
        obtain ⟨c', hc', hh⟩ := h
        exact ⟨c', List.mem_cons_of_mem _ hc', hh⟩

/-- `maybeSnap` returns the input unchanged or a candidate closer than
the threshold. -/
theorem maybeSnap_spec (cands : List ℝ) (t r : ℝ) :
    maybeSnap cands t r = r ∨
      ∃ c ∈ cands, maybeSnap cands t r = c ∧ cents r c < t := by
  rw [maybeSnap]
  exact snapFold_mem t r cands (r, (⊤ : EReal))

/-- Once `bestDiff` is a real number `d`, candidates at cents distance
not less than `d` never replace the stored best. -/
theorem snapFold_frozen (t r d : ℝ) :
    ∀ (l : List ℝ) (b : ℝ),
      (∀ c ∈ l, ¬cents r c < d) →
      List.foldl (snapStep t r) (b, (d : EReal)) l = (b, (d : EReal)) := by
  intro l
  induction l with
  | nil => intro b _; rfl
  | cons c cs ih =>
    intro b hl
    rw [List.foldl_cons]
    have hstep : snapStep t r (b, (d : EReal)) c = (b, (d : EReal)) := by
      rw [snapStep, if_neg]
      intro hcontra
      exact hl c (List.mem_cons_self _ _) (EReal.coe_lt_coe_iff.mp hcontra.2)
    rw [hstep]
    exact ih b (fun c' hc' => hl c' (List.mem_cons_of_mem _ hc'))

/-- While all scanned candidates are strictly farther than `d`, the
stored `bestDiff` stays strictly above `d` (it is `Infinity` or the
distance of one of those candidates). -/
theorem snapFold_pending (t r d : ℝ) :
    ∀ (l : List ℝ) (s : ℝ × EReal),
      (∀ c ∈ l, d < cents r c) →
      (s.2 = ⊤ ∨ ∃ db : ℝ, s.2 = (db : EReal) ∧ d < db) →
      ((List.foldl (snapStep t r) s l).2 = ⊤ ∨
        ∃ db : ℝ, (List.foldl (snapStep t r) s l).2 = (db : EReal) ∧ d < db) := by
  intro l
  induction l with
  | nil => intro s _ hs; exact hs
  | cons c cs ih =>
    intro s hl hs
    rw [List.foldl_cons]
    apply ih (snapStep t r s c)
      (fun c' hc' => hl c' (List.mem_cons_of_mem _ hc'))
    rcases snapStep_cases t r s c with h | h
    · rw [h]; exact hs
    · rw [h.1]
      exact Or.inr ⟨cents r c, rfl, hl c (List.mem_cons_self _ _)⟩

/-- If every candidate left of `c₁` is strictly farther from the input
than `c₁`, no candidate right of `c₁` is strictly closer than `c₁`, and
`c₁` is below the threshold, then the scan settles on `c₁`. -/
theorem maybeSnap_first_min (t r c₁ : ℝ) (l₁ l₂ : List ℝ)
    (h₁ : ∀ c ∈ l₁, cents r c₁ < cents r c)
    (h₂ : ∀ c ∈ l₂, ¬cents r c < cents r c₁)
    (ht : cents r c₁ < t) :
    maybeSnap (l₁ ++ c₁ :: l₂) t r = c₁ := by
  rw [maybeSnap, List.foldl_append, List.foldl_cons]
  have hpend := snapFold_pending t r (cents r c₁) l₁ (r, (⊤ : EReal)) h₁
    (Or.inl rfl)
  have hstep : snapStep t r (List.foldl (snapStep t r) (r, (⊤ : EReal)) l₁) c₁ =
      (c₁, (cents r c₁ : EReal)) := by
    rw [snapStep, if_pos]
    refine ⟨ht, ?_⟩
    rcases hpend with h | ⟨db, hdb, hlt⟩
    · rw [h]; exact EReal.coe_lt_top _
    · rw [hdb]; exact EReal.coe_lt_coe_iff.mpr hlt
  rw [hstep, snapFold_frozen t r (cents r c₁) l₂ c₁ h₂]

/-! ### ScaleStore (main script)

The scale is the global array

```
let scaleDegrees = [
  { fractionText: "1/1", floatVal: 1.0, selected: false },
  { fractionText: "2/1", floatVal: 2.0, selected: false }
];
```

and the public operations are the `addIntervalBtn` click handler
(insert), the ratio-label click callback in `drawLabel` (delete), the
`clearAllBtn` handler (clear all), `onCanvasMouseMove` (drag), and
`applyPresetSelection` (preset replacement).  Error surfacing in these
handlers happens exclusively through `alert(...)`, modelled as an
`Option String` component of the result; `confirm(...)` dialogs are
modelled by a boolean argument carrying the user's answer. -/

/-- One scale degree: the object literal
`{ fractionText, floatVal, selected }`. -/
structure Deg where
  fractionText : String
  floatVal : ℝ
  selected : Bool

noncomputable instance : DecidableEq Deg := fun _ _ => Classical.propDecidable _

/-- The bootstrap scale holding only the boundary degrees. -/
noncomputable def scaleBootstrap : List Deg :=
  [⟨"1/1", 1, false⟩, ⟨"2/1", 2, false⟩]

/-- Comparator `(a, b) => a.floatVal - b.floatVal` viewed as `≤`. -/
def degLE (a b : Deg) : Prop := a.floatVal ≤ b.floatVal

/-- Strict ascending order of degrees by ratio. -/
def degLT (a b : Deg) : Prop := a.floatVal < b.floatVal

noncomputable instance : DecidableRel degLE := fun _ _ => Classical.propDecidable _

instance : IsTotal Deg degLE := ⟨fun a b => le_total a.floatVal b.floatVal⟩

instance : IsTrans Deg degLE := ⟨fun _ _ _ h1 h2 => le_trans h1 h2⟩

/-- `scaleDegrees.sort((a, b) => a.floatVal - b.floatVal)`: a stable
ascending sort (ECMAScript sorts are stable), embedded as insertion
sort. -/
noncomputable def sortDeg (l : List Deg) : List Deg := List.insertionSort degLE l

open Classical in
/-- The `addIntervalBtn` click handler:

```
let text = intervalInput.value.trim();
if (!text) { alert("Enter ratio, e.g. 3/2 or 1.414"); return; }
let r = parseFractionOrDecimal(text);
if (!isFinite(r) || r <= 1 || r >= 2) {
  alert("Ratio must be >1 and <2");
  return;
}
let exist = scaleDegrees.some(d => Math.abs(d.floatVal - r) < 1e-7);
if (!exist) {
  scaleDegrees.push({ fractionText: text, floatVal: r, selected: false });
  scaleDegrees.sort((a, b) => a.floatVal - b.floatVal);
}
```

The text parser is an external collaborator; its output is passed in as
`r`, with `none` standing for a non-finite parse result. -/
noncomputable def insertInterval (s : List Deg) (text : String) (r : Option ℝ) :
    List Deg × Option String :=
  if text = "" then (s, some "Enter ratio, e.g. 3/2 or 1.414")
  else
    match r with
    | none => (s, some "Ratio must be >1 and <2")
    | some r =>
      if r ≤ 1 ∨ 2 ≤ r then (s, some "Ratio must be >1 and <2")
      else if ∃ d ∈ s, |d.floatVal - r| < 1 / 10 ^ 7 then (s, none)
      else (sortDeg (s ++ [⟨text, r, false⟩]), none)

open Classical in
/-- The ratio-label click callback registered in `drawLabel`:

```
if (label.degree.floatVal === 1 || label.degree.floatVal === 2) return;
if (confirm(`Delete "..."?`)) {
  scaleDegrees = scaleDegrees.filter(d => d !== label.degree);
}
```

`confirmed` is the user's answer to the `confirm` dialog; on the
boundary path the handler returns before even showing the dialog, and
no `alert` is ever issued. -/
noncomputable def deleteInterval (s : List Deg) (d : Deg) (confirmed : Bool) :
    List Deg × Option String :=
  if d.floatVal = 1 ∨ d.floatVal = 2 then (s, none)
  else if confirmed then (s.filter (fun e => decide (e ≠ d)), none)
  else (s, none)

open Classical in
/-- The `clearAllBtn` handler:
`scaleDegrees = scaleDegrees.filter(d => d.floatVal === 1 || d.floatVal === 2)`. -/
noncomputable def clearAllDegrees (s : List Deg) : List Deg :=
  s.filter (fun d => decide (d.floatVal = 1 ∨ d.floatVal = 2))

open Classical in
/-- The drag tick of `onCanvasMouseMove` applied to a marker `d`:

```
let newRatio = xToRatio(mx, LEFT_X, WIDTH);
newRatio = Math.max(1.0001, Math.min(newRatio, 1.9999));
let snapped = maybeSnap(newRatio);
draggingMarker.floatVal = snapped;
draggingMarker.fractionText = fractionStringApprox(snapped);
```

The screen-to-ratio map is the external pointer collaborator; its raw
output is `rawRatio`.  `getMarkerAtPosition` never yields a boundary
degree (it skips `floatVal === 1` and `floatVal === 2`), which is the
guard below. -/
noncomputable def dragSnapped (rawRatio : ℝ) : ℝ :=
  maybeSnap snapCandidatesR SNAP_THRESHOLD_CENTS
    (max 1.0001 (min rawRatio 1.9999))

open Classical in
/-- See `dragSnapped` for the clamp-and-snap computation of the new
ratio (`newRatio`/`snapped` in the source). -/
noncomputable def dragInterval (s : List Deg) (d : Deg) (rawRatio : ℝ) :
    List Deg :=
  if d.floatVal = 1 ∨ d.floatVal = 2 then s
  else
    s.map (fun e =>
      if e = d then
        ⟨fractionStringApprox (dragSnapped rawRatio), dragSnapped rawRatio,
          e.selected⟩
      else e)

/-- The two preset families of `applyPresetSelection` (the `custom`
branch only shows an alert and leaves the scale unchanged). -/
inductive PresetKind where
  | harmonic
  | equal

open Classical in
/-- The interior degrees pushed by `applyPresetSelection`:

```
if (type === "harmonic") {
  for (let i = n + 1; i <= 2 * n; i++) {
    let valf = i / n;
    if (Math.abs(valf - 1) < 1e-7 || Math.abs(valf - 2) < 1e-7) continue;
    scaleDegrees.push({ fractionText: i + "/" + n, floatVal: valf, selected: false });
  }
} else if (type === "equal") {
  for (let k = 1; k < n; k++) {
    let valf = Math.pow(2, k / n);
    if (Math.abs(valf - 1) < 1e-7 || Math.abs(valf - 2) < 1e-7) continue;
    scaleDegrees.push({ fractionText: `2^(${k}/${n})`, floatVal: valf, selected: false });
  }
}
```
-/
noncomputable def presetDegrees (kind : PresetKind) (n : ℕ) : List Deg :=
  match kind with
  | .harmonic =>
      (List.range' (n + 1) n).filterMap (fun (i : ℕ) =>
        let valf : ℝ := (i : ℝ) / (n : ℝ)
        if |valf - 1| < 1 / 10 ^ 7 ∨ |valf - 2| < 1 / 10 ^ 7 then none
        else some ⟨toString i ++ "/" ++ toString n, valf, false⟩)
  | .equal =>
      (List.range' 1 (n - 1)).filterMap (fun (k : ℕ) =>
        let valf : ℝ := (2 : ℝ) ^ ((k : ℝ) / (n : ℝ))
        if |valf - 1| < 1 / 10 ^ 7 ∨ |valf - 2| < 1 / 10 ^ 7 then none
        else some ⟨"2^(" ++ toString k ++ "/" ++ toString n ++ ")", valf, false⟩)

/-- A confirmed preset application: the handler resets `scaleDegrees`
to the two boundary degrees, pushes the generated interior degrees and
sorts. -/
noncomputable def applyPreset (kind : PresetKind) (n : ℕ) : List Deg :=
  sortDeg ([⟨"1/1", 1, false⟩, ⟨"2/1", 2, false⟩] ++ presetDegrees kind n)

/-- The public scale operations named in the specification: insert,
delete, clear-all, drag, preset replacement. -/
inductive ScaleOp where
  | insert (text : String) (r : Option ℝ)
  | delete (d : Deg) (confirmed : Bool)
  | clear
  | drag (d : Deg) (rawRatio : ℝ)
  | preset (kind : PresetKind) (n : ℕ) (confirmed : Bool)

/-- Whether an operation is a drag. -/
def ScaleOp.isDrag : ScaleOp → Bool
  | .drag _ _ => true
  | _ => false

/-- State transition of one public operation (the alert component, when
present, is dropped: it does not touch the scale). -/
noncomputable def applyOp (s : List Deg) : ScaleOp → List Deg
  | .insert text r => (insertInterval s text r).1
  | .delete d c => (deleteInterval s d c).1
  | .clear => clearAllDegrees s
  | .drag d raw => dragInterval s d raw
  | .preset kind n c => if c then applyPreset kind n else s

/-- The scale reached from the bootstrap state by a sequence of public
operations. -/
noncomputable def runScale (ops : List ScaleOp) : List Deg :=
  List.foldl applyOp scaleBootstrap ops

open Classical in
/-- Number of degrees whose ratio is exactly `v`. -/
noncomputable def countRatio (v : ℝ) (s : List Deg) : ℕ :=
  (s.filter (fun d => decide (d.floatVal = v))).length

/-- The invariant of the specification: strictly ascending ratios with
exactly one degree of ratio `1.0` and exactly one of ratio `2.0`. -/
def scaleInv (s : List Deg) : Prop :=
  List.Pairwise degLT s ∧ countRatio 1 s = 1 ∧ countRatio 2 s = 1

/-! ### Sorting and counting infrastructure -/

/-- Distinctness of degrees by ratio. -/
def degNE (a b : Deg) : Prop := a.floatVal ≠ b.floatVal

theorem degNE_symm : ∀ {a b : Deg}, degNE a b → degNE b a :=
  fun h => Ne.symm h

theorem sortDeg_sorted (l : List Deg) : List.Sorted degLE (sortDeg l) :=
  List.sorted_insertionSort degLE l

theorem sortDeg_perm (l : List Deg) : (sortDeg l).Perm l :=
  List.perm_insertionSort degLE l

/-- Sorting a list of degrees with pairwise distinct ratios produces a
strictly ascending list. -/
theorem sortDeg_pairwise_lt (l : List Deg) (h : List.Pairwise degNE l) :
    List.Pairwise degLT (sortDeg l) := by
  have hne : List.Pairwise degNE (sortDeg l) :=
    ((sortDeg_perm l).pairwise_iff (fun h' => degNE_symm h')).mpr h
  have hle : List.Pairwise degLE (sortDeg l) := sortDeg_sorted l
  exact (hle.and hne).imp (fun h' => lt_of_le_of_ne h'.1 h'.2)

theorem countRatio_nil (v : ℝ) : countRatio v [] = 0 := rfl

theorem countRatio_cons (v : ℝ) (e : Deg) (s : List Deg) :
    countRatio v (e :: s) =
      (if e.floatVal = v then 1 else 0) + countRatio v s := by
  rw [countRatio, countRatio, List.filter_cons]
  by_cases h : e.floatVal = v
  · simp [h, Nat.add_comm]
  · simp [h]

theorem countRatio_perm {l l' : List Deg} (h : l.Perm l') (v : ℝ) :
    countRatio v l = countRatio v l' := by
  rw [countRatio, countRatio]
  exact (h.filter _).length_eq

theorem countRatio_append (v : ℝ) (l1 l2 : List Deg) :
    countRatio v (l1 ++ l2) = countRatio v l1 + countRatio v l2 := by
  rw [countRatio, countRatio, countRatio, List.filter_append,
    List.length_append]

/-- A filter that keeps every degree of ratio `v` does not change the
count of `v`. -/
theorem countRatio_filter (v : ℝ) (p : Deg → Bool) (s : List Deg)
    (h : ∀ e : Deg, e.floatVal = v → p e = true) :
    countRatio v (s.filter p) = countRatio v s := by
  induction s with
  | nil => rfl
  | cons e es ih =>
    rw [List.filter_cons]
    by_cases he : p e = true
    · rw [if_pos he, countRatio_cons, countRatio_cons, ih]
    · have hev : ¬e.floatVal = v := fun hv => he (h e hv)
      rw [if_neg he, ih, countRatio_cons, if_neg hev, zero_add]

/-- A map that neither creates nor destroys degrees of ratio `v` does
not change the count of `v`. -/
theorem countRatio_map (v : ℝ) (f : Deg → Deg) (s : List Deg)
    (h : ∀ e : Deg, (f e).floatVal = v ↔ e.floatVal = v) :
    countRatio v (s.map f) = countRatio v s := by
  induction s with
  | nil => rfl
  | cons e es ih =>
    rw [List.map_cons, countRatio_cons, countRatio_cons, ih]
    by_cases he : e.floatVal = v
    · rw [if_pos he, if_pos ((h e).mpr he)]
    · rw [if_neg he, if_neg (fun hv => he ((h e).mp hv))]

/-! ### Candidate set soundness -/

instance : IsTotal SnapCandidate candLE := ⟨fun a b => le_total a.ratio b.ratio⟩

instance : IsTrans SnapCandidate candLE := ⟨fun _ _ _ h1 h2 => le_trans h1 h2⟩

/-- Reduced fractions with positive parts are uniquely represented. -/
theorem coprime_div_inj (n₁ d₁ n₂ d₂ : ℕ) (hd₁ : 1 ≤ d₁) (hd₂ : 1 ≤ d₂)
    (hc₁ : Nat.gcd n₁ d₁ = 1) (hc₂ : Nat.gcd n₂ d₂ = 1)
    (he : (n₁ : ℚ) / (d₁ : ℚ) = (n₂ : ℚ) / (d₂ : ℚ)) :
    n₁ = n₂ ∧ d₁ = d₂ := by
  have hq₁ : ((d₁ : ℚ)) ≠ 0 := Nat.cast_ne_zero.mpr (by omega)
  have hq₂ : ((d₂ : ℚ)) ≠ 0 := Nat.cast_ne_zero.mpr (by omega)
  have hcross : n₁ * d₂ = n₂ * d₁ := by
    field_simp at he
    exact_mod_cast he
  have hdvd₁ : d₁ ∣ d₂ := by
    have h1 : d₁ ∣ n₁ * d₂ := by
      rw [hcross]
      exact dvd_mul_left d₁ n₂
    exact (Nat.Coprime.symm hc₁).dvd_of_dvd_mul_left h1
  have hdvd₂ : d₂ ∣ d₁ := by
    have h1 : d₂ ∣ n₂ * d₁ := by
      rw [← hcross]
      exact dvd_mul_left d₂ n₁
    exact (Nat.Coprime.symm hc₂).dvd_of_dvd_mul_left h1
  have hdd : d₁ = d₂ := Nat.dvd_antisymm hdvd₁ hdvd₂
  subst hdd
  refine ⟨?_, rfl⟩
  exact Nat.eq_of_mul_eq_mul_right (by omega) hcross

/-- Characterisation of the inner loop body of `initSnapCandidates`. -/
theorem candGen_eq {d n : ℕ} {c : SnapCandidate}
    (h : (if ((n : ℚ) / (d : ℚ)) ≤ 1 ∨ 2 ≤ ((n : ℚ) / (d : ℚ)) then none
          else if gcdRec n d = 1 then
            some (⟨(n : ℚ) / (d : ℚ), n, d⟩ : SnapCandidate)
          else none) = some c) :
    c = ⟨(n : ℚ) / (d : ℚ), n, d⟩ ∧ 1 < ((n : ℚ) / (d : ℚ)) ∧
      ((n : ℚ) / (d : ℚ)) < 2 ∧ Nat.gcd n d = 1 := by
  by_cases h1 : ((n : ℚ) / (d : ℚ)) ≤ 1 ∨ 2 ≤ ((n : ℚ) / (d : ℚ))
  · rw [if_pos h1] at h
    exact absurd h (by simp)
  · rw [if_neg h1] at h
    by_cases h2 : gcdRec n d = 1
    · rw [if_pos h2] at h
      push_neg at h1
      rw [gcdRec_eq_gcd] at h2
      exact ⟨(Option.some.inj h).symm, h1.1, h1.2, h2⟩
    · rw [if_neg h2] at h
      exact absurd h (by simp)

/-- Every candidate records its own reduced fraction, which lies
strictly inside the octave. -/
theorem initSnapCandidates_mem (maxDen : ℕ) :
    ∀ c ∈ initSnapCandidates maxDen,
      c.ratio = (c.num : ℚ) / (c.den : ℚ) ∧ Nat.gcd c.num c.den = 1 ∧
        1 < c.ratio ∧ c.ratio < 2 ∧ 1 ≤ c.num ∧ 1 ≤ c.den ∧ c.den ≤ maxDen := by
  intro c hc
  rw [initSnapCandidates, List.mem_insertionSort, List.mem_bind] at hc
  obtain ⟨d, hd, hc⟩ := hc
  rw [List.mem_filterMap] at hc
  obtain ⟨n, hn, hfn⟩ := hc
  rw [List.mem_range'_1] at hd hn
  obtain ⟨hcq, h1, h2, hg⟩ := candGen_eq hfn
  have hnum : c.num = n := by rw [hcq]
  have hden : c.den = d := by rw [hcq]
  have hrat : c.ratio = (n : ℚ) / (d : ℚ) := by rw [hcq]
  refine ⟨by rw [hrat, hnum, hden], by rw [hnum, hden]; exact hg,
    by rw [hrat]; exact h1, by rw [hrat]; exact h2,
    by omega, by omega, by omega⟩

/-- The generated candidate list has no duplicate entries. -/
theorem initSnapCandidates_nodup (maxDen : ℕ) :
    (initSnapCandidates maxDen).Nodup := by
  rw [initSnapCandidates]
  rw [(List.perm_insertionSort candLE _).nodup_iff]
  rw [List.nodup_bind]
  constructor
  · intro d _
    apply List.Nodup.filterMap
    · intro n n' c hn hn'
      obtain ⟨rfl, -, -, -⟩ := candGen_eq hn
      obtain ⟨hc', -, -, -⟩ := candGen_eq hn'
      have hnn := congrArg SnapCandidate.num hc'
      simpa using hnn
    · exact List.nodup_range' 1 _
  · -- candidates generated for different denominators are disjoint,
    -- because each candidate records its denominator
    have : ∀ d₁ d₂ : ℕ, d₁ ≠ d₂ →
        ((List.range' 1 (2 * d₁ - 1)).filterMap fun (n : ℕ) =>
            let ratio : ℚ := (n : ℚ) / (d₁ : ℚ)
            if ratio ≤ 1 ∨ 2 ≤ ratio then none
            else if gcdRec n d₁ = 1 then
              some (⟨ratio, n, d₁⟩ : SnapCandidate)
            else none).Disjoint
          ((List.range' 1 (2 * d₂ - 1)).filterMap fun (n : ℕ) =>
            let ratio : ℚ := (n : ℚ) / (d₂ : ℚ)
            if ratio ≤ 1 ∨ 2 ≤ ratio then none
            else if gcdRec n d₂ = 1 then
              some (⟨ratio, n, d₂⟩ : SnapCandidate)
            else none) := by
      intro d₁ d₂ hne c hc₁ hc₂
      rw [List.mem_filterMap] at hc₁ hc₂
      obtain ⟨n₁, -, hf₁⟩ := hc₁
      obtain ⟨n₂, -, hf₂⟩ := hc₂
      obtain ⟨rfl, -, -, -⟩ := candGen_eq hf₁
      obtain ⟨hc', -, -, -⟩ := candGen_eq hf₂
      have hdd := congrArg SnapCandidate.den hc'
      simp only [] at hdd
      exact hne hdd
    apply List.Pairwise.imp_of_mem (l := List.range' 1 maxDen)
      (R := fun a b => a ≠ b)
    · intro d₁ d₂ _ _ hne
      exact this d₁ d₂ hne
    · exact List.nodup_range' 1 maxDen

/-- Members of the candidate set with equal values are equal. -/
theorem initSnapCandidates_value_inj (maxDen : ℕ) :
    ∀ c₁ ∈ initSnapCandidates maxDen, ∀ c₂ ∈ initSnapCandidates maxDen,
      c₁.ratio = c₂.ratio → c₁ = c₂ := by
  intro c₁ h₁ c₂ h₂ hr
  obtain ⟨he₁, hg₁, -, -, -, hd₁, -⟩ := initSnapCandidates_mem maxDen c₁ h₁
  obtain ⟨he₂, hg₂, -, -, -, hd₂, -⟩ := initSnapCandidates_mem maxDen c₂ h₂
  have hfrac : (c₁.num : ℚ) / (c₁.den : ℚ) = (c₂.num : ℚ) / (c₂.den : ℚ) := by
    rw [← he₁, ← he₂, hr]
  obtain ⟨hn, hd⟩ := coprime_div_inj _ _ _ _ hd₁ hd₂ hg₁ hg₂ hfrac
  cases c₁
  cases c₂
  simp_all

/-- The candidate set is strictly ascending by value (in particular it
has no duplicate values). -/
theorem initSnapCandidates_pairwise (maxDen : ℕ) :
    List.Pairwise (fun a b => a.ratio < b.ratio) (initSnapCandidates maxDen) := by
  have hsorted : List.Sorted candLE (initSnapCandidates maxDen) :=
    List.sorted_insertionSort candLE _
  have hnodup := initSnapCandidates_nodup maxDen
  have hne : List.Pairwise (fun a b : SnapCandidate => a.ratio ≠ b.ratio)
      (initSnapCandidates maxDen) := by
    apply List.Pairwise.imp_of_mem ?_ hnodup
    intro a b ha hb hab hr
    exact hab (initSnapCandidates_value_inj maxDen a ha b hb hr)
  exact (hsorted.and hne).imp (fun h => lt_of_le_of_ne h.1 h.2)

/-- The real candidate values used for snapping lie strictly inside the
octave. -/
theorem snapCandidatesR_mem : ∀ c ∈ snapCandidatesR, 1 < c ∧ c < 2 := by
  intro c hc
  rw [snapCandidatesR, List.mem_map] at hc
  obtain ⟨cand, hcand, rfl⟩ := hc
  obtain ⟨-, -, h1, h2, -⟩ := initSnapCandidates_mem MAX_DEN cand hcand
  constructor
  · exact_mod_cast h1
  · exact_mod_cast h2

/-! ### Properties of the scale operations -/

/-- Whatever the raw drag position, the ratio written by a drag tick is
strictly inside the octave: it is either the clamped position in
`[1.0001, 1.9999]` or one of the candidate ratios in `(1, 2)`. -/
theorem dragSnapped_bounds (raw : ℝ) :
    1 < dragSnapped raw ∧ dragSnapped raw < 2 := by
  have hr1 : (1 : ℝ) < max 1.0001 (min raw 1.9999) :=
    lt_of_lt_of_le (by norm_num) (le_max_left _ _)
  have hr2 : max 1.0001 (min raw 1.9999) < 2 := by
    apply max_lt (by norm_num)
    exact lt_of_le_of_lt (min_le_right _ _) (by norm_num)
  rw [dragSnapped]
  rcases maybeSnap_spec snapCandidatesR SNAP_THRESHOLD_CENTS
      (max 1.0001 (min raw 1.9999)) with h | ⟨c, hc, heq, -⟩
  · rw [h]
    exact ⟨hr1, hr2⟩
  · rw [heq]
    exact snapCandidatesR_mem c hc

theorem countRatio_eq_zero {v : ℝ} {s : List Deg}
    (h : ∀ e ∈ s, e.floatVal ≠ v) : countRatio v s = 0 := by
  induction s with
  | nil => rfl
  | cons e es ih =>
    rw [countRatio_cons, if_neg (h e (List.mem_cons_self _ _)), zero_add]
    exact ih (fun e' he' => h e' (List.mem_cons_of_mem _ he'))

/-- Characterisation of the harmonic-preset loop body. -/
theorem presetHarm_eq {n i : ℕ} {e : Deg}
    (h : (if |((i : ℝ)) / (n : ℝ) - 1| < 1 / 10 ^ 7 ∨
            |((i : ℝ)) / (n : ℝ) - 2| < 1 / 10 ^ 7 then none
          else some (⟨toString i ++ "/" ++ toString n,
            (i : ℝ) / (n : ℝ), false⟩ : Deg)) = some e) :
    e = ⟨toString i ++ "/" ++ toString n, (i : ℝ) / (n : ℝ), false⟩ ∧
      ¬|((i : ℝ)) / (n : ℝ) - 1| < 1 / 10 ^ 7 ∧
      ¬|((i : ℝ)) / (n : ℝ) - 2| < 1 / 10 ^ 7 := by
  by_cases h1 : |((i : ℝ)) / (n : ℝ) - 1| < 1 / 10 ^ 7 ∨
      |((i : ℝ)) / (n : ℝ) - 2| < 1 / 10 ^ 7
  · rw [if_pos h1] at h
    exact absurd h (by simp)
  · rw [if_neg h1] at h
    push_neg at h1
    exact ⟨(Option.some.inj h).symm, not_lt.mpr h1.1, not_lt.mpr h1.2⟩

/-- Characterisation of the equal-division-preset loop body. -/
theorem presetEq_eq {n k : ℕ} {e : Deg}
    (h : (if |(2 : ℝ) ^ ((k : ℝ) / (n : ℝ)) - 1| < 1 / 10 ^ 7 ∨
            |(2 : ℝ) ^ ((k : ℝ) / (n : ℝ)) - 2| < 1 / 10 ^ 7 then none
          else some (⟨"2^(" ++ toString k ++ "/" ++ toString n ++ ")",
            (2 : ℝ) ^ ((k : ℝ) / (n : ℝ)), false⟩ : Deg)) = some e) :
    e = ⟨"2^(" ++ toString k ++ "/" ++ toString n ++ ")",
        (2 : ℝ) ^ ((k : ℝ) / (n : ℝ)), false⟩ ∧
      ¬|(2 : ℝ) ^ ((k : ℝ) / (n : ℝ)) - 1| < 1 / 10 ^ 7 ∧
      ¬|(2 : ℝ) ^ ((k : ℝ) / (n : ℝ)) - 2| < 1 / 10 ^ 7 := by
  by_cases h1 : |(2 : ℝ) ^ ((k : ℝ) / (n : ℝ)) - 1| < 1 / 10 ^ 7 ∨
      |(2 : ℝ) ^ ((k : ℝ) / (n : ℝ)) - 2| < 1 / 10 ^ 7
  · rw [if_pos h1] at h
    exact absurd h (by simp)
  · rw [if_neg h1] at h
    push_neg at h1
    exact ⟨(Option.some.inj h).symm, not_lt.mpr h1.1, not_lt.mpr h1.2⟩

/-- Interior preset degrees are never at ratio exactly `1` or `2` (the
source skips anything within `1e-7` of the boundaries). -/
theorem presetDegrees_ne_boundary (kind : PresetKind) (n : ℕ) :
    ∀ e ∈ presetDegrees kind n, e.floatVal ≠ 1 ∧ e.floatVal ≠ 2 := by
  intro e he
  cases kind with
  | harmonic =>
    rw [presetDegrees, List.mem_filterMap] at he
    obtain ⟨i, -, hf⟩ := he
    obtain ⟨rfl, h1, h2⟩ := presetHarm_eq hf
    constructor
    · intro hv
      dsimp only at hv
      apply h1
      rw [hv]
      norm_num
    · intro hv
      dsimp only at hv
      apply h2
      rw [hv]
      norm_num
  | equal =>
    rw [presetDegrees, List.mem_filterMap] at he
    obtain ⟨k, -, hf⟩ := he
    obtain ⟨rfl, h1, h2⟩ := presetEq_eq hf
    constructor
    · intro hv
      dsimp only at hv
      apply h1
      rw [hv]
      norm_num
    · intro hv
      dsimp only at hv
      apply h2
      rw [hv]
      norm_num

theorem insertInterval_countRatio (s : List Deg) (text : String) (r : Option ℝ)
    (v : ℝ) (hv : v ≤ 1 ∨ 2 ≤ v) :
    countRatio v (insertInterval s text r).1 = countRatio v s := by
  rw [insertInterval.eq_def]
  by_cases ht : text = ""
  · rw [if_pos ht]
  · rw [if_neg ht]
    cases r with
    | none => rfl
    | some r =>
      dsimp only
      by_cases h1 : r ≤ 1 ∨ 2 ≤ r
      · rw [if_pos h1]
      · rw [if_neg h1]
        by_cases h2 : ∃ d ∈ s, |d.floatVal - r| < 1 / 10 ^ 7
        · rw [if_pos h2]
        · rw [if_neg h2]
          push_neg at h1
          have hrv : ¬(⟨text, r, false⟩ : Deg).floatVal = v := by
            dsimp only
            rcases hv with h | h
            · intro hh
              rw [hh] at h1
              exact absurd h (not_le.mpr h1.1)
            · intro hh
              rw [hh] at h1
              exact absurd h (not_le.mpr h1.2)
          rw [countRatio_perm (sortDeg_perm _), countRatio_append,
            countRatio_cons, if_neg hrv, countRatio_nil]
          omega

theorem deleteInterval_countRatio (s : List Deg) (d : Deg) (conf : Bool)
    (v : ℝ) (hv : v = 1 ∨ v = 2) :
    countRatio v (deleteInterval s d conf).1 = countRatio v s := by
  rw [deleteInterval]
  by_cases hb : d.floatVal = 1 ∨ d.floatVal = 2
  · rw [if_pos hb]
  · rw [if_neg hb]
    cases conf with
    | false => rfl
    | true =>
      apply countRatio_filter
      intro e he
      rw [decide_eq_true_eq]
      intro hed
      apply hb
      rw [← hed, he]
      exact hv

theorem clearAllDegrees_countRatio (s : List Deg) (v : ℝ)
    (hv : v = 1 ∨ v = 2) :
    countRatio v (clearAllDegrees s) = countRatio v s := by
  apply countRatio_filter
  intro e he
  rw [decide_eq_true_eq]
  rcases hv with rfl | rfl
  · exact Or.inl he
  · exact Or.inr he

theorem dragInterval_countRatio (s : List Deg) (d : Deg) (raw : ℝ) (v : ℝ)
    (hv : v = 1 ∨ v = 2) :
    countRatio v (dragInterval s d raw) = countRatio v s := by
  rw [dragInterval]
  by_cases hb : d.floatVal = 1 ∨ d.floatVal = 2
  · rw [if_pos hb]
  · rw [if_neg hb]
    apply countRatio_map
    intro e
    by_cases hed : e = d
    · rw [if_pos hed]
      constructor
      · intro hsnap
        dsimp only at hsnap
        exfalso
        obtain ⟨hs1, hs2⟩ := dragSnapped_bounds raw
        rcases hv with rfl | rfl
        · rw [hsnap] at hs1
          exact lt_irrefl _ hs1
        · rw [hsnap] at hs2
          exact lt_irrefl _ hs2
      · intro hev
        exfalso
        apply hb
        rw [← hed, hev]
        exact hv
    · rw [if_neg hed]

theorem applyPreset_countRatio (kind : PresetKind) (n : ℕ) (v : ℝ)
    (hv : v = 1 ∨ v = 2) :
    countRatio v (applyPreset kind n) = 1 := by
  rw [applyPreset, countRatio_perm (sortDeg_perm _), countRatio_append]
  have h0 : countRatio v (presetDegrees kind n) = 0 := by
    apply countRatio_eq_zero
    intro e he
    obtain ⟨h1, h2⟩ := presetDegrees_ne_boundary kind n e he
    rcases hv with rfl | rfl
    · exact h1
    · exact h2
  rw [h0]
  rcases hv with rfl | rfl
  · rw [countRatio_cons, countRatio_cons, countRatio_nil]
    norm_num
  · rw [countRatio_cons, countRatio_cons, countRatio_nil]
    norm_num

/-- Every public operation preserves "exactly one degree at ratio 1 and
exactly one at ratio 2". -/
theorem applyOp_counts (s : List Deg) (op : ScaleOp)
    (h1 : countRatio 1 s = 1) (h2 : countRatio 2 s = 1) :
    countRatio 1 (applyOp s op) = 1 ∧ countRatio 2 (applyOp s op) = 1 := by
  cases op with
  | insert text r =>
    rw [applyOp, insertInterval_countRatio s text r 1 (Or.inl le_rfl),
      insertInterval_countRatio s text r 2 (Or.inr le_rfl)]
    exact ⟨h1, h2⟩
  | delete d conf =>
    rw [applyOp, deleteInterval_countRatio s d conf 1 (Or.inl rfl),
      deleteInterval_countRatio s d conf 2 (Or.inr rfl)]
    exact ⟨h1, h2⟩
  | clear =>
    rw [applyOp, clearAllDegrees_countRatio s 1 (Or.inl rfl),
      clearAllDegrees_countRatio s 2 (Or.inr rfl)]
    exact ⟨h1, h2⟩
  | drag d raw =>
    rw [applyOp, dragInterval_countRatio s d raw 1 (Or.inl rfl),
      dragInterval_countRatio s d raw 2 (Or.inr rfl)]
    exact ⟨h1, h2⟩
  | preset kind n conf =>
    rw [applyOp]
    cases conf with
    | false =>
      rw [if_neg (by simp)]
      exact ⟨h1, h2⟩
    | true =>
      rw [if_pos rfl]
      exact ⟨applyPreset_countRatio kind n 1 (Or.inl rfl),
        applyPreset_countRatio kind n 2 (Or.inr rfl)⟩

/-- Interior preset degrees have pairwise distinct ratios. -/
theorem presetDegrees_pairwise_ne (kind : PresetKind) (n : ℕ) :
    List.Pairwise degNE (presetDegrees kind n) := by
  cases kind with
  | harmonic =>
    rw [presetDegrees, List.pairwise_filterMap]
    apply List.Pairwise.imp_of_mem ?_ (List.pairwise_lt_range' (n + 1) n)
    intro i i' hi hi' hlt e he e' he'
    rw [Option.mem_def] at he he'
    obtain ⟨rfl, -, -⟩ := presetHarm_eq he
    obtain ⟨rfl, -, -⟩ := presetHarm_eq he'
    rw [List.mem_range'_1] at hi hi'
    have hn : 0 < n := by omega
    have hnQ : ((n : ℝ)) ≠ 0 := Nat.cast_ne_zero.mpr (by omega)
    intro heq
    rw [div_eq_div_iff hnQ hnQ] at heq
    field_simp at heq
    rcases heq with h | h <;> omega
  | equal =>
    rw [presetDegrees, List.pairwise_filterMap]
    apply List.Pairwise.imp_of_mem ?_ (List.pairwise_lt_range' 1 (n - 1))
    intro k k' hk hk' hlt e he e' he'
    rw [Option.mem_def] at he he'
    obtain ⟨rfl, -, -⟩ := presetEq_eq he
    obtain ⟨rfl, -, -⟩ := presetEq_eq he'
    rw [List.mem_range'_1] at hk hk'
    have hn : 0 < n := by omega
    have hnR : (0 : ℝ) < n := Nat.cast_pos.mpr hn
    apply ne_of_lt
    rw [Real.rpow_lt_rpow_left_iff (by norm_num : (1 : ℝ) < 2)]
    apply div_lt_div_of_pos_right ?_ hnR
    exact_mod_cast hlt

/-- A confirmed preset application yields a strictly ascending list. -/
theorem applyPreset_pairwise (kind : PresetKind) (n : ℕ) :
    List.Pairwise degLT (applyPreset kind n) := by
  rw [applyPreset]
  apply sortDeg_pairwise_lt
  rw [List.pairwise_append]
  refine ⟨?_, presetDegrees_pairwise_ne kind n, ?_⟩
  · rw [List.pairwise_cons]
    refine ⟨?_, List.pairwise_singleton _ _⟩
    intro b hb
    rw [List.mem_singleton] at hb
    subst hb
    dsimp only [degNE]
    norm_num
  · intro a ha b hb
    obtain ⟨h1, h2⟩ := presetDegrees_ne_boundary kind n b hb
    rw [List.mem_cons, List.mem_singleton] at ha
    rcases ha with rfl | rfl
    · exact fun heq => h1 heq.symm
    · exact fun heq => h2 heq.symm

theorem insertInterval_pairwise (s : List Deg) (text : String) (r : Option ℝ)
    (h : List.Pairwise degLT s) :
    List.Pairwise degLT (insertInterval s text r).1 := by
  rw [insertInterval.eq_def]
  by_cases ht : text = ""
  · rw [if_pos ht]; exact h
  · rw [if_neg ht]
    cases r with
    | none => exact h
    | some r =>
      dsimp only
      by_cases h1 : r ≤ 1 ∨ 2 ≤ r
      · rw [if_pos h1]; exact h
      · rw [if_neg h1]
        by_cases h2 : ∃ d ∈ s, |d.floatVal - r| < 1 / 10 ^ 7
        · rw [if_pos h2]; exact h
        · rw [if_neg h2]
          apply sortDeg_pairwise_lt
          rw [List.pairwise_append]
          refine ⟨h.imp (fun hlt => ne_of_lt hlt),
            List.pairwise_singleton _ _, ?_⟩
          intro a ha b hb
          rw [List.mem_singleton] at hb
          subst hb
          push_neg at h2
          have hge := h2 a ha
          intro heq
          rw [heq] at hge
          simp at hge
          norm_num at hge

theorem deleteInterval_pairwise (s : List Deg) (d : Deg) (conf : Bool)
    (h : List.Pairwise degLT s) :
    List.Pairwise degLT (deleteInterval s d conf).1 := by
  rw [deleteInterval]
  by_cases hb : d.floatVal = 1 ∨ d.floatVal = 2
  · rw [if_pos hb]; exact h
  · rw [if_neg hb]
    cases conf with
    | false => exact h
    | true => exact h.filter _

theorem clearAllDegrees_pairwise (s : List Deg)
    (h : List.Pairwise degLT s) :
    List.Pairwise degLT (clearAllDegrees s) :=
  h.filter _

/-- Every public operation except drag preserves strict ascending
order. -/
theorem applyOp_pairwise (s : List Deg) (op : ScaleOp)
    (hop : op.isDrag = false) (h : List.Pairwise degLT s) :
    List.Pairwise degLT (applyOp s op) := by
  cases op with
  | insert text r => exact insertInterval_pairwise s text r h
  | delete d conf => exact deleteInterval_pairwise s d conf h
  | clear => exact clearAllDegrees_pairwise s h
  | drag d raw => exact absurd hop (by rw [ScaleOp.isDrag]; simp)
  | preset kind n conf =>
    rw [applyOp]
    cases conf with
    | false => rw [if_neg (by simp)]; exact h
    | true => rw [if_pos rfl]; exact applyPreset_pairwise kind n

theorem scaleBootstrap_counts :
    countRatio 1 scaleBootstrap = 1 ∧ countRatio 2 scaleBootstrap = 1 := by
  constructor <;>
    (rw [scaleBootstrap, countRatio_cons, countRatio_cons, countRatio_nil]
     dsimp only
     norm_num)

theorem scaleBootstrap_pairwise : List.Pairwise degLT scaleBootstrap := by
  rw [scaleBootstrap, List.pairwise_cons]
  refine ⟨?_, List.pairwise_singleton _ _⟩
  intro b hb
  rw [List.mem_singleton] at hb
  subst hb
  dsimp only [degLT]
  norm_num

/-- Exactly one ratio-1 degree and one ratio-2 degree survive every
finite sequence of public operations. -/
theorem runScale_counts (ops : List ScaleOp) :
    countRatio 1 (runScale ops) = 1 ∧ countRatio 2 (runScale ops) = 1 := by
  rw [runScale]
  suffices h : ∀ (l : List ScaleOp) (s : List Deg),
      countRatio 1 s = 1 → countRatio 2 s = 1 →
      countRatio 1 (List.foldl applyOp s l) = 1 ∧
        countRatio 2 (List.foldl applyOp s l) = 1 by
    exact h ops scaleBootstrap scaleBootstrap_counts.1 scaleBootstrap_counts.2
  intro l
  induction l with
  | nil => intro s h1 h2; exact ⟨h1, h2⟩
  | cons op l ih =>
    intro s h1 h2
    rw [List.foldl_cons]
    obtain ⟨g1, g2⟩ := applyOp_counts s op h1 h2
    exact ih _ g1 g2

/-- A drag-free sequence of public operations leaves the degree list
strictly ascending by ratio. -/
theorem runScale_pairwise (ops : List ScaleOp)
    (hnd : ∀ op ∈ ops, op.isDrag = false) :
    List.Pairwise degLT (runScale ops) := by
  rw [runScale]
  suffices h : ∀ (l : List ScaleOp) (s : List Deg),
      (∀ op ∈ l, op.isDrag = false) → List.Pairwise degLT s →
      List.Pairwise degLT (List.foldl applyOp s l) by
    exact h ops scaleBootstrap hnd scaleBootstrap_pairwise
  intro l
  induction l with
  | nil => intro s _ hs; exact hs
  | cons op l ih =>
    intro s hl hs
    rw [List.foldl_cons]
    exact ih _ (fun op' hop' => hl op' (List.mem_cons_of_mem _ hop'))
      (applyOp_pairwise s op (hl op (List.mem_cons_self _ _)) hs)

/-! ### Numerical bounds for snapping -/

theorem two_rpow_inv120_lt : (2 : ℝ) ^ ((1 : ℝ) / 120) < 101 / 100 := by
  by_contra hcon
  push_neg at hcon
  have h1 : ((101 : ℝ) / 100) ^ (120 : ℕ) ≤
      ((2 : ℝ) ^ ((1 : ℝ) / 120)) ^ (120 : ℕ) :=
    pow_le_pow_left₀ (by norm_num) hcon 120
  have h2 : ((2 : ℝ) ^ ((1 : ℝ) / 120)) ^ (120 : ℕ) = 2 := by
    rw [← Real.rpow_natCast ((2 : ℝ) ^ ((1 : ℝ) / 120)) 120,
      ← Real.rpow_mul (by norm_num : (0 : ℝ) ≤ 2)]
    norm_num
  rw [h2] at h1
  have h3 : (2 : ℝ) < ((101 : ℝ) / 100) ^ (120 : ℕ) := by norm_num
  linarith

/-- A candidate closer than ten cents to the input is within one percent
of it. -/
theorem snap_within_one_percent (r c : ℝ) (hr : 1 ≤ r) (hc : 0 < c)
    (hcents : cents r c < 10) : c < r * (101 / 100) := by
  rw [cents] at hcents
  have hlog : |Real.logb 2 (r / c)| < 1 / 120 := by linarith
  have hsym : |Real.logb 2 (c / r)| = |Real.logb 2 (r / c)| := by
    rw [show c / r = (r / c)⁻¹ by rw [inv_div], Real.logb_inv, abs_neg]
  have hlt : Real.logb 2 (c / r) < 1 / 120 :=
    lt_of_le_of_lt (le_abs_self _) (by rw [hsym]; exact hlog)
  have hpos : (0 : ℝ) < c / r := div_pos hc (by linarith)
  rw [Real.logb_lt_iff_lt_rpow (by norm_num) hpos] at hlt
  have h2 : c / r < 101 / 100 := lt_trans hlt two_rpow_inv120_lt
  calc c = (c / r) * r := by field_simp
    _ < (101 / 100) * r := mul_lt_mul_of_pos_right h2 (by linarith)
    _ = r * (101 / 100) := by ring

/-- Dragging to raw position `1.2` writes a ratio below `3/2`, whether
or not any snapping happens. -/
theorem dragSnapped_twelvetenths_lt : dragSnapped (12 / 10) < 3 / 2 := by
  have hclamp : max 1.0001 (min ((12 : ℝ) / 10) 1.9999) = 12 / 10 := by
    rw [min_eq_left (by norm_num), max_eq_right (by norm_num)]
  rw [dragSnapped, hclamp]
  rcases maybeSnap_spec snapCandidatesR SNAP_THRESHOLD_CENTS (12 / 10) with
    h | ⟨c, hc, heq, hcents⟩
  · rw [h]; norm_num
  · rw [heq]
    obtain ⟨hc1, -⟩ := snapCandidatesR_mem c hc
    rw [SNAP_THRESHOLD_CENTS] at hcents
    have hb := snap_within_one_percent (12 / 10) c (by norm_num)
      (by linarith) hcents
    linarith

/-! ### The tie at the geometric mean of 4/3 and 3/2 -/

theorem logb_two_sqrt_two : Real.logb 2 (Real.sqrt 2) = 1 / 2 := by
  rw [Real.sqrt_eq_rpow]
  rw [Real.logb_rpow (by norm_num : (0 : ℝ) < 2) (by norm_num : (2 : ℝ) ≠ 1)]

theorem logb_two_four : Real.logb 2 (4 : ℝ) = 2 := by
  rw [show (4 : ℝ) = 2 ^ (2 : ℝ) by rw [Real.rpow_two]; norm_num]
  exact Real.logb_rpow (by norm_num) (by norm_num)

theorem logb_two_three_bounds :
    1 < Real.logb 2 (3 : ℝ) ∧ Real.logb 2 (3 : ℝ) < 2 := by
  constructor
  · rw [Real.lt_logb_iff_rpow_lt (by norm_num) (by norm_num)]
    rw [Real.rpow_one]
    norm_num
  · rw [Real.logb_lt_iff_lt_rpow (by norm_num) (by norm_num)]
    rw [Real.rpow_two]
    norm_num

theorem cents_sqrt2_43 :
    cents (Real.sqrt 2) (4 / 3) = 1200 * |Real.logb 2 (3 : ℝ) - 3 / 2| := by
  rw [cents]
  have hs : (0 : ℝ) < Real.sqrt 2 := Real.sqrt_pos.mpr (by norm_num)
  rw [Real.logb_div (by positivity) (by norm_num)]
  rw [logb_two_sqrt_two]
  rw [Real.logb_div (by norm_num) (by norm_num), logb_two_four]
  congr 1
  rw [show (1 : ℝ) / 2 - (2 - Real.logb 2 3) = Real.logb 2 3 - 3 / 2 by ring]

theorem cents_sqrt2_32 :
    cents (Real.sqrt 2) (3 / 2) = 1200 * |(3 : ℝ) / 2 - Real.logb 2 3| := by
  rw [cents]
  have hs : (0 : ℝ) < Real.sqrt 2 := Real.sqrt_pos.mpr (by norm_num)
  rw [Real.logb_div (by positivity) (by norm_num)]
  rw [logb_two_sqrt_two]
  rw [Real.logb_div (by norm_num) (by norm_num)]
  rw [show Real.logb 2 (2 : ℝ) = 1 from Real.logb_self_eq_one (by norm_num)]
  congr 1
  rw [show (1 : ℝ) / 2 - (Real.logb 2 3 - 1) = 3 / 2 - Real.logb 2 3 by ring]

/-- The square root of two is at exactly the same cents distance from
4/3 and from 3/2. -/
theorem cents_sqrt2_eq :
    cents (Real.sqrt 2) (4 / 3) = cents (Real.sqrt 2) (3 / 2) := by
  rw [cents_sqrt2_43, cents_sqrt2_32, abs_sub_comm]

theorem cents_sqrt2_lt : cents (Real.sqrt 2) (4 / 3) < 2000 := by
  rw [cents_sqrt2_43]
  obtain ⟨h1, h2⟩ := logb_two_three_bounds
  have h3 : |Real.logb 2 (3 : ℝ) - 3 / 2| < 1 / 2 := by
    rw [abs_lt]
    constructor <;> linarith
  linarith

/-- On a strictly ascending candidate list, the scan settles on the
lower-valued of two equidistant nearest candidates, because the
comparison against the running best is a strict less-than. -/
theorem maybeSnap_tie (cands : List ℝ) (t r c₁ c₂ : ℝ)
    (hsort : List.Pairwise (· < ·) cands)
    (h₁ : c₁ ∈ cands) (h₂ : c₂ ∈ cands) (hlt : c₁ < c₂)
    (heq : cents r c₁ = cents r c₂) (ht : cents r c₁ < t)
    (hmin : ∀ c ∈ cands, c ≠ c₁ → c ≠ c₂ → cents r c₁ < cents r c) :
    maybeSnap cands t r = c₁ := by
  obtain ⟨l₁, l₂, rfl⟩ := List.append_of_mem h₁
  rw [List.pairwise_append] at hsort
  obtain ⟨hp₁, hp₂, hcross⟩ := hsort
  apply maybeSnap_first_min
  · intro c hc
    have hclt : c < c₁ := hcross c hc c₁ (List.mem_cons_self _ _)
    exact hmin c (List.mem_append_left _ hc) (ne_of_lt hclt)
      (ne_of_lt (lt_trans hclt hlt))
  · intro c hc
    rw [List.pairwise_cons] at hp₂
    have hc₁c : c₁ < c := hp₂.1 c hc
    by_cases hcc₂ : c = c₂
    · subst hcc₂
      rw [← heq]
      exact lt_irrefl _
    · exact not_lt.mpr (le_of_lt (hmin c
        (List.mem_append_right _ (List.mem_cons_of_mem _ hc))
        (ne_of_gt hc₁c) hcc₂))
  · exact ht

/-! ### Insert and delete behaviour -/

/-- A parsed in-range ratio that duplicates an existing degree (within
`1e-7`) is silently ignored: the state is unchanged and no alert is
raised. -/
theorem insertInterval_dup (s : List Deg) (text : String) (r : ℝ)
    (htext : ¬text = "") (hr1 : 1 < r) (hr2 : r < 2)
    (hdup : ∃ d ∈ s, |d.floatVal - r| < 1 / 10 ^ 7) :
    insertInterval s text (some r) = (s, none) := by
  rw [insertInterval.eq_def, if_neg htext]
  dsimp only
  rw [if_neg (by push_neg; exact ⟨hr1, hr2⟩), if_pos hdup]

/-- Inserting the same text and parsed ratio twice gives the same state
as inserting it once. -/
theorem insertInterval_idem (s : List Deg) (text : String) (r : Option ℝ) :
    (insertInterval (insertInterval s text r).1 text r).1 =
      (insertInterval s text r).1 := by
  by_cases htext : text = ""
  · have hfirst : ∀ s' : List Deg, insertInterval s' text r =
        (s', some "Enter ratio, e.g. 3/2 or 1.414") := by
      intro s'
      rw [insertInterval.eq_def, if_pos htext]
    rw [hfirst, hfirst]
  · cases r with
    | none =>
      have hfirst : ∀ s' : List Deg, insertInterval s' text none =
          (s', some "Ratio must be >1 and <2") := by
        intro s'
        rw [insertInterval.eq_def, if_neg htext]
      rw [hfirst, hfirst]
    | some r =>
      by_cases h1 : r ≤ 1 ∨ 2 ≤ r
      · have hfirst : ∀ s' : List Deg, insertInterval s' text (some r) =
            (s', some "Ratio must be >1 and <2") := by
          intro s'
          rw [insertInterval.eq_def, if_neg htext]
          dsimp only
          rw [if_pos h1]
        rw [hfirst, hfirst]
      · by_cases h2 : ∃ d ∈ s, |d.floatVal - r| < 1 / 10 ^ 7
        · have hfirst : insertInterval s text (some r) = (s, none) := by
            rw [insertInterval.eq_def, if_neg htext]
            dsimp only
            rw [if_neg h1, if_pos h2]
          rw [hfirst, hfirst]
        · have hfirst : insertInterval s text (some r) =
              (sortDeg (s ++ [⟨text, r, false⟩]), none) := by
            rw [insertInterval.eq_def, if_neg htext]
            dsimp only
            rw [if_neg h1, if_neg h2]
          rw [hfirst]
          rw [insertInterval.eq_def, if_neg htext]
          dsimp only
          rw [if_neg h1, if_pos ?_]
          exact ⟨⟨text, r, false⟩,
            (sortDeg_perm _).mem_iff.mpr
              (List.mem_append_right _ (List.mem_singleton_self _)),
            by dsimp only; rw [sub_self, abs_zero]; positivity⟩

/-- Deleting a boundary degree returns before the confirm dialog: the
state is unchanged and nothing is surfaced. -/
theorem deleteInterval_boundary (s : List Deg) (d : Deg) (conf : Bool)
    (h : d.floatVal = 1 ∨ d.floatVal = 2) :
    deleteInterval s d conf = (s, none) := by
  rw [deleteInterval, if_pos h]

/-- A confirmed delete of a non-boundary degree occurring exactly once
removes exactly that occurrence. -/
theorem deleteInterval_removes (l₁ l₂ : List Deg) (d : Deg)
    (hb : ¬(d.floatVal = 1 ∨ d.floatVal = 2))
    (h₁ : d ∉ l₁) (h₂ : d ∉ l₂) :
    deleteInterval (l₁ ++ d :: l₂) d true = (l₁ ++ l₂, none) := by
  rw [deleteInterval, if_neg hb, if_pos rfl]
  congr 1
  rw [List.filter_append, List.filter_cons]
  rw [if_neg (by simp)]
  rw [List.filter_eq_self.mpr, List.filter_eq_self.mpr]
  · intro e he
    rw [decide_eq_true_eq]
    intro hed
    exact h₂ (hed ▸ he)
  · intro e he
    rw [decide_eq_true_eq]
    intro hed
    exact h₁ (hed ▸ he)

/-! ### The claims -/

/-- Claim C1, as stated, is false: the drag operation writes the
snapped ratio into the dragged degree in place, without re-sorting and
without re-checking duplicates, so a drag can move a degree past a
neighbour and break strict ascending order.  Concretely: insert `3/2`,
insert `17/10`, then drag the `17/10` marker to raw position `1.2`; the
new ratio is below `3/2` (it is at most `1.2 · 1.01`, whether or not it
snaps), but the degree stays in third position. -/
theorem scale_ops_invariant_failure :
    ¬scaleInv (runScale
      [ScaleOp.insert "3/2" (some (3 / 2)),
       ScaleOp.insert "17/10" (some (17 / 10)),
       ScaleOp.drag ⟨"17/10", 17 / 10, false⟩ (12 / 10)]) := by
  have h2 : runScale [ScaleOp.insert "3/2" (some (3 / 2)),
      ScaleOp.insert "17/10" (some (17 / 10))] =
      [⟨"1/1", 1, false⟩, ⟨"3/2", 3 / 2, false⟩, ⟨"17/10", 17 / 10, false⟩,
        ⟨"2/1", 2, false⟩] := by
    rw [runScale, List.foldl_cons, List.foldl_cons, List.foldl_nil]
    norm_num +decide [applyOp, insertInterval, scaleBootstrap, sortDeg,
      List.insertionSort, List.orderedInsert, degLE, abs_lt]
  have hrun : runScale [ScaleOp.insert "3/2" (some (3 / 2)),
      ScaleOp.insert "17/10" (some (17 / 10)),
      ScaleOp.drag ⟨"17/10", 17 / 10, false⟩ (12 / 10)] =
      applyOp (runScale [ScaleOp.insert "3/2" (some (3 / 2)),
        ScaleOp.insert "17/10" (some (17 / 10))])
        (ScaleOp.drag ⟨"17/10", 17 / 10, false⟩ (12 / 10)) := by
    rw [runScale, runScale, List.foldl_cons, List.foldl_cons,
      List.foldl_cons, List.foldl_nil, List.foldl_cons, List.foldl_cons,
      List.foldl_nil]
  have h3 : applyOp [(⟨"1/1", 1, false⟩ : Deg), ⟨"3/2", 3 / 2, false⟩,
      ⟨"17/10", 17 / 10, false⟩, ⟨"2/1", 2, false⟩]
      (ScaleOp.drag ⟨"17/10", 17 / 10, false⟩ (12 / 10)) =
      [⟨"1/1", 1, false⟩, ⟨"3/2", 3 / 2, false⟩,
        ⟨fractionStringApprox (dragSnapped (12 / 10)),
          dragSnapped (12 / 10), false⟩, ⟨"2/1", 2, false⟩] := by
    norm_num +decide [applyOp, dragInterval, Deg.mk.injEq]
  intro hinv
  obtain ⟨hpw, -, -⟩ := hinv
  rw [hrun, h2, h3] at hpw
  rw [List.pairwise_cons] at hpw
  obtain ⟨-, hpw⟩ := hpw
  rw [List.pairwise_cons] at hpw
  have h32 := hpw.1 _ (List.mem_cons_self _ _)
  have hb := dragSnapped_twelvetenths_lt
  dsimp only [degLT] at h32
  linarith

/-- Claim C1, amended: after any finite sequence of public operations
from the bootstrap state, the list contains exactly one degree of ratio
`1.0` and exactly one of ratio `2.0`; and whenever the sequence
contains no drag operation, the list is additionally strictly ascending
by ratio.  (A drag preserves the boundary degrees but can break the
ordering, as the counterexample shows.) -/
theorem scale_ops_invariant (ops : List ScaleOp) :
    countRatio 1 (runScale ops) = 1 ∧ countRatio 2 (runScale ops) = 1 ∧
      ((∀ op ∈ ops, op.isDrag = false) →
        List.Pairwise degLT (runScale ops)) :=
  ⟨(runScale_counts ops).1, (runScale_counts ops).2,
    fun h => runScale_pairwise ops h⟩

/-- Witness for `scale_ops_invariant` on the one-element sequence
consisting of a clear-all. -/
theorem scale_ops_invariant_witness :
    countRatio 1 (runScale [ScaleOp.clear]) = 1 ∧
      countRatio 2 (runScale [ScaleOp.clear]) = 1 ∧
      List.Pairwise degLT (runScale [ScaleOp.clear]) := by
  obtain ⟨h1, h2, h3⟩ := scale_ops_invariant [ScaleOp.clear]
  refine ⟨h1, h2, h3 ?_⟩
  intro op hop
  rw [List.mem_singleton] at hop
  subst hop
  rfl

/-- Claim C2: for every input ratio, every candidate set and every
threshold, `maybeSnap` either returns the input unchanged or returns a
value whose cents distance from the input is strictly below the
threshold. -/
theorem snap_boundedness (cands : List ℝ) (t r : ℝ) :
    maybeSnap cands t r = r ∨ cents (maybeSnap cands t r) r < t := by
  rcases maybeSnap_spec cands t r with h | ⟨c, -, heq, hc⟩
  · exact Or.inl h
  · right
    rw [heq, cents_comm]
    exact hc

/-- Claim C3: for every input `x` and every `maxDenominator ≥ 1`,
`bestRationalApproximation` returns a pair whose denominator never
exceeds `maxDenominator` (the loop backs off to the previous convergent
when the bound would be violated). -/
theorem bra_denominator_bound (x : K) (maxDen : ℤ) (h : 1 ≤ maxDen) :
    ∃ p q : ℤ,
      bestRationalApproximation x maxDen = some (p, q) ∧ q ≤ maxDen := by
  obtain ⟨pq, hres⟩ := Option.isSome_iff_exists.mp (bra_isSome x maxDen)
  obtain ⟨p, q⟩ := pq
  refine ⟨p, q, hres, ?_⟩
  rw [bestRationalApproximation] at hres
  exact braLoop_den_le maxDen _ x 0 1 1 0 _ _ p q (by simpa using h) hres

/-- Witness for `bra_denominator_bound` at `x = 3/2`, `maxDen = 1`:
the loop backs off to the convergent `(1, 1)`. -/
theorem bra_denominator_bound_witness :
    (∃ p q : ℤ, bestRationalApproximation (3 / 2 : ℚ) 1 = some (p, q) ∧
        q ≤ 1) ∧
      bestRationalApproximation (3 / 2 : ℚ) 1 = some (1, 1) :=
  ⟨bra_denominator_bound (3 / 2 : ℚ) 1 (by norm_num),
    by with_unfolding_all rfl⟩

/-- Claim C4: for every fraction in lowest terms with denominator at
most `50`, `bestRationalApproximation` with `maxDen = 100000` returns
exactly that fraction: the zero-remainder check stops the loop at the
exact input. -/
theorem bra_convergent_exact (x : ℚ) (h : x.den ≤ 50) :
    bestRationalApproximation x 100000 = some (x.num, (x.den : ℤ)) :=
  bra_exact x h

/-- Witness for `bra_convergent_exact` at `x = 22/7`. -/
theorem bra_convergent_exact_witness :
    bestRationalApproximation (22 / 7 : ℚ) 100000 = some (22, 7) := by
  have h := bra_convergent_exact (22 / 7 : ℚ) (by with_unfolding_all decide)
  rw [show ((22 / 7 : ℚ).num) = 22 by with_unfolding_all rfl,
    show (((22 / 7 : ℚ).den) : ℤ) = 7 by with_unfolding_all rfl] at h
  exact h

/-- Claim C5: for every maximal denominator at least one, every entry
of the candidate set is a triple `(value, n, d)` with `value = n / d`,
`gcd n d = 1` and `1 < value < 2`, and the list is strictly ascending
by value (hence free of duplicate values). -/
theorem candidate_set_spec (maxDen : ℕ) (h : 1 ≤ maxDen) :
    (∀ c ∈ initSnapCandidates maxDen,
      c.ratio = (c.num : ℚ) / (c.den : ℚ) ∧ Nat.gcd c.num c.den = 1 ∧
        1 < c.ratio ∧ c.ratio < 2) ∧
      List.Pairwise (fun a b => a.ratio < b.ratio)
        (initSnapCandidates maxDen) := by
  refine ⟨?_, initSnapCandidates_pairwise maxDen⟩
  intro c hc
  obtain ⟨h1, h2, h3, h4, -⟩ := initSnapCandidates_mem maxDen c hc
  exact ⟨h1, h2, h3, h4⟩

/-- Witness for `candidate_set_spec` at `maxDen = 2`, where the
candidate set is exactly `[3/2]`. -/
theorem candidate_set_spec_witness :
    initSnapCandidates 2 = [⟨3 / 2, 3, 2⟩] ∧
      ((∀ c ∈ initSnapCandidates 2,
        c.ratio = (c.num : ℚ) / (c.den : ℚ) ∧ Nat.gcd c.num c.den = 1 ∧
          1 < c.ratio ∧ c.ratio < 2) ∧
        List.Pairwise (fun a b => a.ratio < b.ratio)
          (initSnapCandidates 2)) :=
  ⟨by with_unfolding_all rfl, candidate_set_spec 2 (by norm_num)⟩

/-- Claim C6: when the input is at exactly the same minimal
below-threshold cents distance from two distinct candidates of a
strictly ascending candidate list, the scan returns the lower-valued
one, because the comparison against the running best is a strict
less-than. -/
theorem snap_tie_break_lower (cands : List ℝ) (t r c₁ c₂ : ℝ)
    (hsort : List.Pairwise (· < ·) cands)
    (h₁ : c₁ ∈ cands) (h₂ : c₂ ∈ cands) (hlt : c₁ < c₂)
    (heq : cents r c₁ = cents r c₂) (ht : cents r c₁ < t)
    (hmin : ∀ c ∈ cands, c ≠ c₁ → c ≠ c₂ → cents r c₁ < cents r c) :
    maybeSnap cands t r = c₁ :=
  maybeSnap_tie cands t r c₁ c₂ hsort h₁ h₂ hlt heq ht hmin

/-- Witness for `snap_tie_break_lower`: the square root of two is the
geometric mean of `4/3` and `3/2`, hence at exactly the same cents
distance from both; with a threshold of `2000` cents the scan snaps it
to the lower candidate `4/3`. -/
theorem snap_tie_break_lower_witness :
    maybeSnap [(4 : ℝ) / 3, 3 / 2] 2000 (Real.sqrt 2) = 4 / 3 := by
  apply snap_tie_break_lower [(4 : ℝ) / 3, 3 / 2] 2000 (Real.sqrt 2)
    (4 / 3) (3 / 2)
  · rw [List.pairwise_cons]
    refine ⟨?_, List.pairwise_singleton _ _⟩
    intro b hb
    rw [List.mem_singleton] at hb
    subst hb
    norm_num
  · exact List.mem_cons_self _ _
  · exact List.mem_cons_of_mem _ (List.mem_cons_self _ _)
  · norm_num
  · exact cents_sqrt2_eq
  · exact cents_sqrt2_lt
  · intro c hc hne₁ hne₂
    rw [List.mem_cons, List.mem_singleton] at hc
    rcases hc with rfl | rfl
    · exact absurd rfl hne₁
    · exact absurd rfl hne₂

/-- Claim C7, as stated, is false: a parsed ratio can lie within `1e-7`
of an already-present degree and still trigger an alert rather than a
silent no-op, namely when it is out of the open range `(1, 2)`.
Concretely, inserting the text `2/2` (parsed ratio `1`) duplicates the
boundary degree `1/1` within `1e-7`, yet the handler raises the
"Ratio must be >1 and <2" alert. -/
theorem insert_duplicate_failure :
    (∃ d ∈ scaleBootstrap, |d.floatVal - (1 : ℝ)| < 1 / 10 ^ 7) ∧
      (insertInterval scaleBootstrap "2/2" (some 1)).2 ≠ none := by
  constructor
  · refine ⟨⟨"1/1", 1, false⟩, List.mem_cons_self _ _, ?_⟩
    rw [show ((⟨"1/1", 1, false⟩ : Deg).floatVal - (1 : ℝ)) = 0 by
      dsimp only; ring]
    rw [abs_zero]
    positivity
  · rw [insertInterval.eq_def, if_neg (by decide)]
    dsimp only
    rw [if_pos (Or.inl le_rfl)]
    simp

/-- Claim C7, amended: inserting a nonempty text whose parsed ratio
lies in the open interval `(1, 2)` and within `1e-7` of an
already-present degree is a silent no-op (state unchanged, no alert);
and inserting the same text and parsed value twice always leaves the
state after the second insert equal to the state after the first. -/
theorem insert_duplicate_amended :
    (∀ (s : List Deg) (text : String) (r : ℝ), ¬text = "" →
      1 < r → r < 2 → (∃ d ∈ s, |d.floatVal - r| < 1 / 10 ^ 7) →
      insertInterval s text (some r) = (s, none)) ∧
    (∀ (s : List Deg) (text : String) (r : Option ℝ),
      (insertInterval (insertInterval s text r).1 text r).1 =
        (insertInterval s text r).1) :=
  ⟨insertInterval_dup, insertInterval_idem⟩

/-- Witness for `insert_duplicate_amended`: re-inserting `3/2` into a
scale already holding it is a silent no-op, and inserting `3/2` twice
into the bootstrap scale equals inserting it once. -/
theorem insert_duplicate_amended_witness :
    insertInterval [(⟨"1/1", 1, false⟩ : Deg), ⟨"3/2", 3 / 2, false⟩,
        ⟨"2/1", 2, false⟩] "3/2" (some (3 / 2)) =
      ([⟨"1/1", 1, false⟩, ⟨"3/2", 3 / 2, false⟩, ⟨"2/1", 2, false⟩],
        none) ∧
      (insertInterval (insertInterval scaleBootstrap "3/2"
          (some (3 / 2))).1 "3/2" (some (3 / 2))).1 =
        (insertInterval scaleBootstrap "3/2" (some (3 / 2))).1 := by
  constructor
  · refine insert_duplicate_amended.1 _ "3/2" (3 / 2) (by decide)
      (by norm_num) (by norm_num) ⟨⟨"3/2", 3 / 2, false⟩, ?_, ?_⟩
    · simp
    · rw [show ((⟨"3/2", 3 / 2, false⟩ : Deg).floatVal - (3 / 2 : ℝ)) = 0 by
        dsimp only; ring]
      rw [abs_zero]
      positivity
  · exact insert_duplicate_amended.2 scaleBootstrap "3/2" (some (3 / 2))

/-- Claim C8, as stated, is false in its error-surfacing part: deleting
a boundary degree leaves the state unchanged, but no error of any kind
is surfaced — the ratio-label click handler returns before even showing
the confirm dialog, and the alert channel (the only error-surfacing
mechanism of these handlers) stays empty. -/
theorem delete_boundary_failure :
    deleteInterval scaleBootstrap ⟨"1/1", 1, false⟩ true =
      (scaleBootstrap, none) := by
  rw [deleteInterval, if_pos (Or.inl rfl)]

/-- Claim C8, amended: deleting a degree whose ratio is exactly `1` or
`2` is silently ignored (state unchanged, nothing surfaced); a
confirmed delete of any other degree occurring exactly once removes
exactly that degree. -/
theorem delete_behaviour_amended :
    (∀ (s : List Deg) (d : Deg) (conf : Bool),
      d.floatVal = 1 ∨ d.floatVal = 2 →
      deleteInterval s d conf = (s, none)) ∧
    (∀ (l₁ l₂ : List Deg) (d : Deg), ¬(d.floatVal = 1 ∨ d.floatVal = 2) →
      d ∉ l₁ → d ∉ l₂ →
      deleteInterval (l₁ ++ d :: l₂) d true = (l₁ ++ l₂, none)) :=
  ⟨deleteInterval_boundary, deleteInterval_removes⟩

/-- Witness for `delete_behaviour_amended`: deleting the `2/1` boundary
is ignored, and deleting a lone `3/2` removes exactly it. -/
theorem delete_behaviour_amended_witness :
    deleteInterval [(⟨"2/1", 2, false⟩ : Deg)] ⟨"2/1", 2, false⟩ true =
      ([⟨"2/1", 2, false⟩], none) ∧
      deleteInterval [(⟨"1/1", 1, false⟩ : Deg), ⟨"3/2", 3 / 2, false⟩,
          ⟨"2/1", 2, false⟩] ⟨"3/2", 3 / 2, false⟩ true =
        ([⟨"1/1", 1, false⟩, ⟨"2/1", 2, false⟩], none) := by
  constructor
  · exact delete_behaviour_amended.1 _ _ true (Or.inr rfl)
  · exact delete_behaviour_amended.2 [⟨"1/1", 1, false⟩]
      [⟨"2/1", 2, false⟩] ⟨"3/2", 3 / 2, false⟩
      (by rintro (h | h) <;> norm_num at h)
      (by norm_num +decide [Deg.mk.injEq])
      (by norm_num +decide [Deg.mk.injEq])

/-- Claim C9: applying the harmonic preset with `n = 8` to the
bootstrap store yields exactly the nine degrees `1/1, 9/8, …, 15/8,
2/1` in ascending order, each interior degree labelled with the literal
string `i/8`; the boundary-equal value `16/8` is skipped by the `1e-7`
test. -/
theorem harmonic_preset_scenario :
    runScale [ScaleOp.preset PresetKind.harmonic 8 true] =
      [⟨"1/1", 1, false⟩, ⟨"9/8", 9 / 8, false⟩, ⟨"10/8", 10 / 8, false⟩,
        ⟨"11/8", 11 / 8, false⟩, ⟨"12/8", 12 / 8, false⟩,
        ⟨"13/8", 13 / 8, false⟩, ⟨"14/8", 14 / 8, false⟩,
        ⟨"15/8", 15 / 8, false⟩, ⟨"2/1", 2, false⟩] := by
  rw [runScale, List.foldl_cons, List.foldl_nil]
  simp only [applyOp]
  rw [if_pos trivial, applyPreset, presetDegrees]
  rw [show List.range' (8 + 1) 8 = [9, 10, 11, 12, 13, 14, 15, 16]
    from rfl]
  norm_num +decide [List.filterMap_cons, sortDeg, List.insertionSort,
    List.orderedInsert, degLE, abs_lt, Deg.mk.injEq]

/-- Claim C10: the convergent loop always terminates — for every input
and every bound the function returns a pair (fuel never runs out). -/
theorem bra_totality (x : K) (maxDen : ℤ) (h : 1 ≤ maxDen) :
    ∃ pq : ℤ × ℤ, bestRationalApproximation x maxDen = some pq := by
  obtain ⟨pq, hres⟩ := Option.isSome_iff_exists.mp (bra_isSome x maxDen)
  exact ⟨pq, hres⟩

/-- Witness for `bra_totality` at `x = 1/3`, `maxDen = 7`. -/
theorem bra_totality_witness :
    (∃ pq : ℤ × ℤ,
      bestRationalApproximation (1 / 3 : ℚ) 7 = some pq) ∧
      bestRationalApproximation (1 / 3 : ℚ) 7 = some (1, 3) :=
  ⟨bra_totality (1 / 3 : ℚ) 7 (by norm_num), by with_unfolding_all rfl⟩

end Oktavia
